import Mathlib

/-!
Shallow embedding of the resilience primitives of a trading-API SDK:
the exponential-backoff retry, the circuit breaker, the fixed-interval
rate gate, the TTL/LRU cache and the idempotency cache.  Each definition
is translated from the corresponding source function; the theorems
settle the specification claims about them.
-/

deriving instance DecidableEq for Except

namespace SDK

/-! ## Association-list model of a JavaScript Map with string keys

A JavaScript Map is modelled as an association list in insertion order.
The operations mirror Map.get, Map.has, Map.set (overwrite in place, or
append when the key is new) and Map.delete.
-/

def mapGet {β : Type} (m : List (String × β)) (k : String) : Option β :=
  (m.find? (fun p => p.1 == k)).map Prod.snd

def hasKey {β : Type} (m : List (String × β)) (k : String) : Bool :=
  m.any (fun p => p.1 == k)

def mapSet {β : Type} (m : List (String × β)) (k : String) (v : β) : List (String × β) :=
  if hasKey m k then m.map (fun p => if p.1 == k then (k, v) else p)
  else m ++ [(k, v)]

def mapDelete {β : Type} (m : List (String × β)) (k : String) : List (String × β) :=
  m.filter (fun p => !(p.1 == k))

/-! ## Retry with exponential backoff

Embedding of retryWithBackoff / calculateDelay.  A thrown JavaScript
value is either an Error object (identified by its message) or a
non-Error value (identified by its String rendering); the catch block
normalizes the latter with new Error(String(error)).  Clock durations
and the jitter arithmetic are modelled with exact rationals; the random
sample in [0, 1] is an explicit argument.
-/

inductive JsThrown where
  | jsError (msg : String)
  | jsOther (str : String)
deriving DecidableEq, Repr

/-- The message String used when the thrown value is inspected. -/
def JsThrown.message : JsThrown → String
  | .jsError m => m
  | .jsOther s => s

/-- Normalization done in the catch block:
the expression error instanceof Error ? error : new Error(String(error)). -/
def JsThrown.normalize : JsThrown → JsThrown
  | .jsError m => .jsError m
  | .jsOther s => .jsError s

/-- Embedding of calculateDelay: exponential backoff capped at maxDelay,
with jitter of amplitude jitterFactor drawn from the sample rand. -/
def calculateDelay (attempt : Nat)
    (initialDelay maxDelay backoffMultiplier jitterFactor rand : ℚ) : ℚ :=
  let exponentialDelay := min (initialDelay * backoffMultiplier ^ attempt) maxDelay
  let jitter := (rand - 1/2) * 2 * jitterFactor * exponentialDelay
  max 1 (exponentialDelay + jitter)

/-- The optional numeric fields of RetryOptions as passed by the caller. -/
structure RetryOptions where
  maxRetries : Option Nat
  initialDelay : Option ℚ
  maxDelay : Option ℚ
  backoffMultiplier : Option ℚ
  jitterFactor : Option ℚ
deriving DecidableEq

structure ResolvedRetryOptions where
  maxRetries : Nat
  initialDelay : ℚ
  maxDelay : ℚ
  backoffMultiplier : ℚ
  jitterFactor : ℚ
deriving DecidableEq

/-- Destructuring with per-field defaults at the top of retryWithBackoff. -/
def resolveOptions (o : RetryOptions) : ResolvedRetryOptions where
  maxRetries := o.maxRetries.getD 3
  initialDelay := o.initialDelay.getD 100
  maxDelay := o.maxDelay.getD 10000
  backoffMultiplier := o.backoffMultiplier.getD 2
  jitterFactor := o.jitterFactor.getD (1/10)

def emptyRetryOptions : RetryOptions := ⟨none, none, none, none, none⟩

/-- Observable result of one retryWithBackoff call: the returned or thrown
value, the number of invocations of the wrapped operation, and the list of
delays slept between invocations. -/
structure RetryRun (A : Type) where
  result : Except JsThrown A
  calls : Nat
  delays : List ℚ
deriving DecidableEq

/-- The retry loop.  The argument op gives the outcome of the k-th
invocation of the wrapped operation (0-based); p is the shouldRetry
predicate applied to the normalized error message and the attempt index;
d gives the backoff delay for a given attempt index; fuel is the number
of retries still allowed, so the loop condition attempt less-than
maxRetries of the source corresponds to fuel being nonzero. -/
def retryAux {A : Type} (op : Nat → Except JsThrown A) (p : String → Nat → Bool)
    (d : Nat → ℚ) : Nat → Nat → RetryRun A
  | attempt, fuel =>
    match op attempt with
    | .ok a => ⟨.ok a, 1, []⟩
    | .error e =>
      if p e.message attempt then
        match fuel with
        | 0 => ⟨.error e.normalize, 1, []⟩
        | f + 1 =>
          let rest := retryAux op p d (attempt + 1) f
          ⟨rest.result, rest.calls + 1, d attempt :: rest.delays⟩
      else ⟨.error e.normalize, 1, []⟩

/-- Embedding of retryWithBackoff.  The sample rand k feeds the jitter of
the delay computed after the k-th failed invocation. -/
def retryWithBackoff {A : Type} (op : Nat → Except JsThrown A)
    (p : String → Nat → Bool) (o : RetryOptions) (rand : Nat → ℚ) : RetryRun A :=
  let r := resolveOptions o
  retryAux op p
    (fun k => calculateDelay k r.initialDelay r.maxDelay r.backoffMultiplier
      r.jitterFactor (rand k))
    0 r.maxRetries

/-! ## Circuit breaker

Embedding of the CircuitBreaker class.  The options record keeps each
field optional because the constructor replaces the whole defaults
object: an explicitly passed object with missing fields leaves those
fields undefined.  Arithmetic and comparisons against an undefined field
follow the JavaScript semantics of NaN: every comparison is false, and
adding undefined to a number gives NaN (modelled by none).
-/

namespace Breaker

inductive BState where
  | CLOSED
  | OPEN
  | HALF_OPEN
deriving DecidableEq, Repr

structure Options where
  failureThreshold : Option Nat
  successThreshold : Option Nat
  timeout : Option Nat
deriving DecidableEq, Repr

def defaultOptions : Options := ⟨some 5, some 2, some 60000⟩

/-- The constructor default parameter: the defaults object is used only
when no options argument is given at all; a provided object is taken
field-for-field as is. -/
def mkOptions : Option Options → Options
  | some o => o
  | none => defaultOptions

structure State where
  failureCount : Nat
  successCount : Nat
  state : BState
  nextAttemptTime : Option Nat
deriving DecidableEq, Repr

def initState : State := ⟨0, 0, .CLOSED, some 0⟩

/-- JavaScript comparison a greater-or-equal b where b may be undefined:
a comparison against undefined (NaN) is false. -/
def geU (a : Nat) : Option Nat → Bool
  | some b => b ≤ a
  | none => false

/-- JavaScript comparison a less-than b where b may be NaN. -/
def ltU (a : Nat) : Option Nat → Bool
  | some b => a < b
  | none => false

/-- now plus timeout, where an undefined timeout yields NaN. -/
def addU (a : Nat) : Option Nat → Option Nat
  | some b => some (a + b)
  | none => none

inductive Outcome (E A : Type) where
  | ok (a : A)
  | err (e : E)
  | openErr (remaining : Option Nat)
deriving DecidableEq

/-- One execute() call: given the options, the current state, the current
time and the result the wrapped operation would produce if invoked,
return the outcome, the new state and whether the wrapped operation was
invoked. -/
def execute {E A : Type} (o : Options) (b : State) (now : Nat) (r : Except E A) :
    Outcome E A × State × Bool :=
  if b.state = .OPEN ∧ ltU now b.nextAttemptTime then
    (.openErr (b.nextAttemptTime.map (fun t => t - now)), b, false)
  else
    let b1 := if b.state = .OPEN then { b with state := .HALF_OPEN } else b
    match r with
    | .ok a =>
      let b2 := { b1 with failureCount := 0 }
      let b3 :=
        if b2.state = .HALF_OPEN then
          if geU (b2.successCount + 1) o.successThreshold then
            { b2 with state := .CLOSED, successCount := 0 }
          else { b2 with successCount := b2.successCount + 1 }
        else b2
      (.ok a, b3, true)
    | .error e =>
      let b2 := { b1 with successCount := 0, failureCount := b1.failureCount + 1 }
      let b3 :=
        if geU b2.failureCount o.failureThreshold then
          { b2 with state := .OPEN, nextAttemptTime := addU now o.timeout }
        else b2
      (.err e, b3, true)

/-- New state after one execute() call of a breaker over String errors and
Unit results, with the default options; used for concrete executions of
the state machine. -/
def execState (b : State) (now : Nat) (r : Except String Unit) : State :=
  (execute defaultOptions b now r).2.1

/-- A breaker driven from the initial state through five consecutive
failures at time 0: it is OPEN with nextAttemptTime 60000. -/
def openedBreaker : State :=
  execState (execState (execState (execState (execState initState 0 (.error "e"))
    0 (.error "e")) 0 (.error "e")) 0 (.error "e")) 0 (.error "e")

/-- The same breaker after one successful probe at time 60000: it is
HALF_OPEN with one recorded probe success. -/
def probedBreaker : State := execState openedBreaker 60000 (.ok ())

end Breaker

/-! ## Fixed-interval rate gate

Embedding of FixedGate.  The clock is modelled as advancing exactly by
the slept duration inside a wait() call, plus an arbitrary nonnegative
gap between consecutive calls.
-/

namespace Gate

/-- Embedding of Math.ceil(1000 / opsPerSec), with exact arithmetic. -/
def intervalMs (opsPerSec : Nat) : Nat := (Int.ceil ((1000 : ℚ) / opsPerSec)).toNat

/-- One wait() call: given the interval, the stored last-release time and
the current clock, return the time at which the call returns.  That time
also becomes the new last-release value. -/
def waitNow (interval last now : Nat) : Nat :=
  if now - last < interval then now + (interval - (now - last)) else now

/-- A sequence of wait() calls on one gate: before each call the clock
advances by the corresponding gap, then the call runs.  Returns the clock
at the end of the last call. -/
def runWaits (interval : Nat) : Nat → Nat → List Nat → Nat
  | _, now, [] => now
  | last, now, g :: gs =>
    let t := waitNow interval last (now + g)
    runWaits interval t t gs

end Gate

/-! ## TTL cache with LRU eviction

Embedding of the TtlCache class from src/cache.ts.  The Map is the
association list, the access order array is a key list with the most
recently touched key last.
-/

namespace Cache

structure CacheEntry (T : Type) where
  value : T
  expiresAt : Nat
deriving DecidableEq, Repr

structure TtlCache (T : Type) where
  cache : List (String × CacheEntry T)
  accessOrder : List String
  defaultTtl : Nat
  maxSize : Nat
deriving DecidableEq, Repr

/-- The constructor, with per-field defaults ttl 1000 and maxSize 1000. -/
def mkCache (T : Type) (ttl maxSize : Option Nat) : TtlCache T :=
  ⟨[], [], ttl.getD 1000, maxSize.getD 1000⟩

/-- get: undefined on a missing key; a present but expired entry is
removed from the map and the access order and reads as undefined; a live
hit moves the key to the most-recently-used position. -/
def get {T : Type} (c : TtlCache T) (k : String) (now : Nat) :
    Option T × TtlCache T :=
  match mapGet c.cache k with
  | none => (none, c)
  | some e =>
    if e.expiresAt ≤ now then
      (none, { c with cache := mapDelete c.cache k,
                      accessOrder := c.accessOrder.erase k })
    else
      (some e.value, { c with accessOrder := c.accessOrder.erase k ++ [k] })

/-- set: overwrite or insert with expiresAt now + ttl, push the key to
the most-recently-used position, then evict the front of the access
order if the map has grown past maxSize.  The shifted front is deleted
from the map only under the truthiness test of the source, so an
undefined shift result (empty order) or an empty-string key is shifted
out of the access order without deleting its entry. -/
def set {T : Type} (c : TtlCache T) (k : String) (v : T) (ttl : Option Nat)
    (now : Nat) : TtlCache T :=
  let ttlMs := ttl.getD c.defaultTtl
  let order1 := if hasKey c.cache k then c.accessOrder.erase k else c.accessOrder
  let cache1 := mapSet c.cache k ⟨v, now + ttlMs⟩
  let order2 := order1 ++ [k]
  if c.maxSize < cache1.length then
    match order2 with
    | [] => { c with cache := cache1, accessOrder := [] }
    | oldest :: rest =>
      if oldest = "" then { c with cache := cache1, accessOrder := rest }
      else { c with cache := mapDelete cache1 oldest, accessOrder := rest }
  else
    { c with cache := cache1, accessOrder := order2 }

/-- has: same expiry semantics as get, without touching the recency of a
live key. -/
def has {T : Type} (c : TtlCache T) (k : String) (now : Nat) :
    Bool × TtlCache T :=
  match mapGet c.cache k with
  | none => (false, c)
  | some e =>
    if e.expiresAt ≤ now then
      (false, { c with cache := mapDelete c.cache k,
                       accessOrder := c.accessOrder.erase k })
    else (true, c)

/-- delete: remove from the access order, remove from the map, return
whether the key was present. -/
def delete {T : Type} (c : TtlCache T) (k : String) : Bool × TtlCache T :=
  (hasKey c.cache k,
   { c with cache := mapDelete c.cache k, accessOrder := c.accessOrder.erase k })

def clear {T : Type} (c : TtlCache T) : TtlCache T :=
  { c with cache := [], accessOrder := [] }

def size {T : Type} (c : TtlCache T) : Nat := c.cache.length

def keysOf {T : Type} (c : TtlCache T) : List String := c.cache.map Prod.fst

/-- cleanup: collect the keys of all currently expired entries, then
delete each of them; return how many were collected. -/
def cleanup {T : Type} (c : TtlCache T) (now : Nat) : Nat × TtlCache T :=
  let ks := (c.cache.filter (fun p => p.2.expiresAt ≤ now)).map Prod.fst
  (ks.length, ks.foldl (fun acc k => (delete acc k).2) c)

/-- The mutating operations of the cache, for the all-operations
invariant. -/
inductive CacheOp (T : Type) where
  | get (k : String) (now : Nat)
  | set (k : String) (v : T) (ttl : Option Nat) (now : Nat)
  | has (k : String) (now : Nat)
  | del (k : String)
  | clear
  | cleanup (now : Nat)

def applyOp {T : Type} (c : TtlCache T) : CacheOp T → TtlCache T
  | .get k now => (get c k now).2
  | .set k v ttl now => set c k v ttl now
  | .has k now => (has c k now).2
  | .del k => (delete c k).2
  | .clear => clear c
  | .cleanup now => (cleanup c now).2

/-- Structural invariant of the cache: the map keys are distinct, the
access order is duplicate-free, the access order holds exactly the live
keys, and the size is within maxSize. -/
def Inv {T : Type} (c : TtlCache T) : Prop :=
  (c.cache.map Prod.fst).Nodup ∧ c.accessOrder.Nodup ∧
  (∀ k, k ∈ c.accessOrder ↔ k ∈ c.cache.map Prod.fst) ∧
  c.cache.length ≤ c.maxSize

/-- No live key is the empty string, so the truthiness guard on the
evicted key never skips a deletion. -/
def NoEmptyKey {T : Type} (c : TtlCache T) : Prop :=
  "" ∉ c.cache.map Prod.fst

/-- The operation does not insert the empty-string key. -/
def goodOp {T : Type} : CacheOp T → Prop
  | .set k _ _ _ => k ≠ ""
  | _ => True

end Cache

/-! ## Idempotency cache, local backend

Embedding of getIdempotent / setIdempotent on the in-process Map used
when no shared store is configured.  A key is falsy in JavaScript when
it is undefined or the empty string; getIdempotent returns undefined for
both without touching the store.
-/

namespace Idem

structure Entry (B : Type) where
  status : Nat
  body : B
  createdAt : Nat
  ttlMs : Nat
deriving DecidableEq, Repr

def defaultTtlMs : Nat := 10 * 60 * 1000

/-- getIdempotent on the local backend: a falsy key reads as absent; an
entry older than its ttl is deleted and reads as absent. -/
def getIdempotent {B : Type} (store : List (String × Entry B))
    (key : Option String) (now : Nat) :
    Option (Entry B) × List (String × Entry B) :=
  match key with
  | none => (none, store)
  | some k =>
    if k = "" then (none, store)
    else
      match mapGet store k with
      | none => (none, store)
      | some e =>
        if e.ttlMs < now - e.createdAt then (none, mapDelete store k)
        else (some e, store)

/-- setIdempotent on the local backend: store the entry under the key,
overwriting any previous one. -/
def setIdempotent {B : Type} (store : List (String × Entry B)) (k : String)
    (status : Nat) (body : B) (ttl : Option Nat) (now : Nat) :
    List (String × Entry B) :=
  mapSet store k ⟨status, body, now, ttl.getD defaultTtlMs⟩

end Idem

/-! ## Lemmas about the retry loop -/

theorem retryAux_ok {A : Type} (op : Nat → Except JsThrown A) (p : String → Nat → Bool)
    (d : Nat → ℚ) (attempt fuel : Nat) (a : A) (h : op attempt = .ok a) :
    retryAux op p d attempt fuel = ⟨.ok a, 1, []⟩ := by
  rw [retryAux, h]

theorem retryAux_reject {A : Type} (op : Nat → Except JsThrown A) (p : String → Nat → Bool)
    (d : Nat → ℚ) (attempt fuel : Nat) (e : JsThrown) (h : op attempt = .error e)
    (hp : p e.message attempt = false) :
    retryAux op p d attempt fuel = ⟨.error e.normalize, 1, []⟩ := by
  rw [retryAux, h]
  simp [hp]

theorem retryAux_exhaust {A : Type} (op : Nat → Except JsThrown A) (p : String → Nat → Bool)
    (d : Nat → ℚ) (attempt : Nat) (e : JsThrown) (h : op attempt = .error e)
    (hp : p e.message attempt = true) :
    retryAux op p d attempt 0 = ⟨.error e.normalize, 1, []⟩ := by
  rw [retryAux, h]
  simp [hp]

theorem retryAux_step {A : Type} (op : Nat → Except JsThrown A) (p : String → Nat → Bool)
    (d : Nat → ℚ) (attempt f : Nat) (e : JsThrown) (h : op attempt = .error e)
    (hp : p e.message attempt = true) :
    retryAux op p d attempt (f + 1) =
      ⟨(retryAux op p d (attempt + 1) f).result,
       (retryAux op p d (attempt + 1) f).calls + 1,
       d attempt :: (retryAux op p d (attempt + 1) f).delays⟩ := by
  rw [retryAux, h]
  simp [hp]

theorem retryAux_calls_le {A : Type} (op : Nat → Except JsThrown A) (p : String → Nat → Bool)
    (d : Nat → ℚ) : ∀ fuel attempt, (retryAux op p d attempt fuel).calls ≤ fuel + 1 := by
  intro fuel
  induction fuel with
  | zero =>
    intro attempt
    cases h : op attempt with
    | ok a => rw [retryAux_ok op p d attempt 0 a h]
    | error e =>
      cases hp : p e.message attempt with
      | false => rw [retryAux_reject op p d attempt 0 e h hp]
      | true => rw [retryAux_exhaust op p d attempt e h hp]
  | succ f ih =>
    intro attempt
    cases h : op attempt with
    | ok a =>
      rw [retryAux_ok op p d attempt (f + 1) a h]
      simp
    | error e =>
      cases hp : p e.message attempt with
      | false =>
        rw [retryAux_reject op p d attempt (f + 1) e h hp]
        simp
      | true =>
        rw [retryAux_step op p d attempt f e h hp]
        have := ih (attempt + 1)
        show (retryAux op p d (attempt + 1) f).calls + 1 ≤ f + 1 + 1
        omega

theorem retryAux_calls_pos {A : Type} (op : Nat → Except JsThrown A) (p : String → Nat → Bool)
    (d : Nat → ℚ) (attempt fuel : Nat) : 1 ≤ (retryAux op p d attempt fuel).calls := by
  cases h : op attempt with
  | ok a => rw [retryAux_ok op p d attempt fuel a h]
  | error e =>
    cases hp : p e.message attempt with
    | false => rw [retryAux_reject op p d attempt fuel e h hp]
    | true =>
      cases fuel with
      | zero => rw [retryAux_exhaust op p d attempt e h hp]
      | succ f =>
        rw [retryAux_step op p d attempt f e h hp]
        simp

theorem retryAux_success {A : Type} (op : Nat → Except JsThrown A) (p : String → Nat → Bool)
    (d : Nat → ℚ) :
    ∀ (r attempt fuel : Nat) (a : A),
      (∀ j, j < r → ∃ e, op (attempt + j) = .error e ∧ p e.message (attempt + j) = true) →
      op (attempt + r) = .ok a → r ≤ fuel →
      (retryAux op p d attempt fuel).result = .ok a ∧
      (retryAux op p d attempt fuel).calls = r + 1 := by
  intro r
  induction r with
  | zero =>
    intro attempt fuel a _ hok _
    rw [Nat.add_zero] at hok
    rw [retryAux_ok op p d attempt fuel a hok]
    exact ⟨rfl, rfl⟩
  | succ s ih =>
    intro attempt fuel a hfail hok hle
    obtain ⟨e, he, hpe⟩ := hfail 0 (Nat.succ_pos s)
    rw [Nat.add_zero] at he hpe
    cases fuel with
    | zero => exact absurd hle (by omega)
    | succ f =>
      rw [retryAux_step op p d attempt f e he hpe]
      have hrec := ih (attempt + 1) f a
        (fun j hj => by
          have := hfail (j + 1) (by omega)
          rwa [show attempt + (j + 1) = attempt + 1 + j by omega] at this)
        (by rwa [show attempt + 1 + s = attempt + (s + 1) by omega])
        (by omega)
      refine ⟨by simpa using hrec.1, ?_⟩
      show (retryAux op p d (attempt + 1) f).calls + 1 = s + 1 + 1
      rw [hrec.2]

theorem retryAux_all_fail {A : Type} (op : Nat → Except JsThrown A) (p : String → Nat → Bool)
    (d : Nat → ℚ) :
    ∀ (fuel attempt : Nat),
      (∀ j, j ≤ fuel → ∃ e, op (attempt + j) = .error e ∧ p e.message (attempt + j) = true) →
      (retryAux op p d attempt fuel).calls = fuel + 1 ∧
      ∃ e, op (attempt + fuel) = .error e ∧
        (retryAux op p d attempt fuel).result = .error e.normalize := by
  intro fuel
  induction fuel with
  | zero =>
    intro attempt hfail
    obtain ⟨e, he, hpe⟩ := hfail 0 (Nat.le_refl 0)
    rw [Nat.add_zero] at he hpe
    rw [retryAux_exhaust op p d attempt e he hpe]
    exact ⟨rfl, ⟨e, by rw [Nat.add_zero]; exact he, rfl⟩⟩
  | succ f ih =>
    intro attempt hfail
    obtain ⟨e, he, hpe⟩ := hfail 0 (Nat.zero_le _)
    rw [Nat.add_zero] at he hpe
    rw [retryAux_step op p d attempt f e he hpe]
    have hrec := ih (attempt + 1)
      (fun j hj => by
        have := hfail (j + 1) (by omega)
        rwa [show attempt + (j + 1) = attempt + 1 + j by omega] at this)
    obtain ⟨hcalls, e2, he2, hres⟩ := hrec
    refine ⟨?_, ⟨e2, ?_, by simpa using hres⟩⟩
    · show (retryAux op p d (attempt + 1) f).calls + 1 = f + 1 + 1
      omega
    · rwa [show attempt + (f + 1) = attempt + 1 + f by omega]

theorem retryAux_delays_elt {A : Type} (op : Nat → Except JsThrown A) (p : String → Nat → Bool)
    (d : Nat → ℚ) :
    ∀ (fuel attempt j : Nat), j < (retryAux op p d attempt fuel).delays.length →
      (retryAux op p d attempt fuel).delays[j]? = some (d (attempt + j)) := by
  intro fuel
  induction fuel with
  | zero =>
    intro attempt j h
    exfalso
    cases hop : op attempt with
    | ok a => rw [retryAux_ok op p d attempt 0 a hop] at h; simp at h
    | error e =>
      cases hp : p e.message attempt with
      | false => rw [retryAux_reject op p d attempt 0 e hop hp] at h; simp at h
      | true => rw [retryAux_exhaust op p d attempt e hop hp] at h; simp at h
  | succ f ih =>
    intro attempt j h
    cases hop : op attempt with
    | ok a =>
      exfalso
      rw [retryAux_ok op p d attempt (f + 1) a hop] at h
      simp at h
    | error e =>
      cases hp : p e.message attempt with
      | false =>
        exfalso
        rw [retryAux_reject op p d attempt (f + 1) e hop hp] at h
        simp at h
      | true =>
        rw [retryAux_step op p d attempt f e hop hp] at h ⊢
        have h3 : j < (d attempt :: (retryAux op p d (attempt + 1) f).delays).length := h
        show (d attempt :: (retryAux op p d (attempt + 1) f).delays)[j]? = some (d (attempt + j))
        cases j with
        | zero => simp
        | succ i =>
          have h2 : i < (retryAux op p d (attempt + 1) f).delays.length := by
            simp at h3
            omega
          rw [List.getElem?_cons_succ, ih (attempt + 1) i h2]
          congr 2
          omega

theorem retryAux_error_last {A : Type} (op : Nat → Except JsThrown A) (p : String → Nat → Bool)
    (d : Nat → ℚ) :
    ∀ (fuel attempt : Nat) (v : JsThrown),
      (retryAux op p d attempt fuel).result = .error v →
      ∃ e, op (attempt + ((retryAux op p d attempt fuel).calls - 1)) = .error e ∧
        v = e.normalize := by
  intro fuel
  induction fuel with
  | zero =>
    intro attempt v hres
    cases hop : op attempt with
    | ok a =>
      rw [retryAux_ok op p d attempt 0 a hop] at hres
      exact absurd hres (by simp)
    | error e =>
      cases hp : p e.message attempt with
      | false =>
        rw [retryAux_reject op p d attempt 0 e hop hp] at hres ⊢
        exact ⟨e, by simpa using hop, by injection hres with h2; exact h2.symm⟩
      | true =>
        rw [retryAux_exhaust op p d attempt e hop hp] at hres ⊢
        exact ⟨e, by simpa using hop, by injection hres with h2; exact h2.symm⟩
  | succ f ih =>
    intro attempt v hres
    cases hop : op attempt with
    | ok a =>
      rw [retryAux_ok op p d attempt (f + 1) a hop] at hres
      exact absurd hres (by simp)
    | error e =>
      cases hp : p e.message attempt with
      | false =>
        rw [retryAux_reject op p d attempt (f + 1) e hop hp] at hres ⊢
        exact ⟨e, by simpa using hop, by injection hres with h2; exact h2.symm⟩
      | true =>
        rw [retryAux_step op p d attempt f e hop hp] at hres ⊢
        have hres2 : (retryAux op p d (attempt + 1) f).result = .error v := hres
        obtain ⟨e2, he2, hv⟩ := ih (attempt + 1) v hres2
        refine ⟨e2, ?_, hv⟩
        have hpos := retryAux_calls_pos op p d (attempt + 1) f
        rwa [show attempt + ((retryAux op p d (attempt+1) f).calls + 1 - 1) =
          attempt + 1 + ((retryAux op p d (attempt+1) f).calls - 1) by omega]


/-! ## Helper lemmas for the delay formula -/

theorem calculateDelay_eq (attempt : Nat) (iD mD bM jF r : ℚ) :
    calculateDelay attempt iD mD bM jF r =
      max 1 ((min (iD * bM ^ attempt) mD) * (1 + (2 * r - 1) * jF)) := by
  simp only [calculateDelay]
  congr 1
  ring

theorem jitter_abs_le (jF r : ℚ) (hj : 0 ≤ jF) (h0 : 0 ≤ r) (h1 : r ≤ 1) :
    |(2 * r - 1) * jF| ≤ jF := by
  rw [abs_mul, abs_of_nonneg hj]
  have habs : |2 * r - 1| ≤ 1 := abs_le.mpr ⟨by linarith, by linarith⟩
  calc |2 * r - 1| * jF ≤ 1 * jF := mul_le_mul_of_nonneg_right habs hj
    _ = jF := one_mul jF

/-- Claim C1: retryWithBackoff invokes the operation at most maxRetries + 1
times; r accepted failures followed by a success give exactly r + 1
invocations and the success value; all invocations failing with accepted
errors give exactly maxRetries + 1 invocations and a raise; a first error
rejected by the predicate gives exactly one invocation and an immediate
raise with no delay. -/
theorem retry_invocation_counts {A : Type} (op : Nat → Except JsThrown A)
    (p : String → Nat → Bool) (o : RetryOptions) (rand : Nat → ℚ) :
    (retryWithBackoff op p o rand).calls ≤ (resolveOptions o).maxRetries + 1 ∧
    (∀ r a, r < (resolveOptions o).maxRetries →
      (∀ j, j < r → ∃ e, op j = .error e ∧ p e.message j = true) →
      op r = .ok a →
      (retryWithBackoff op p o rand).result = .ok a ∧
      (retryWithBackoff op p o rand).calls = r + 1) ∧
    ((∀ j, j ≤ (resolveOptions o).maxRetries →
        ∃ e, op j = .error e ∧ p e.message j = true) →
      (retryWithBackoff op p o rand).calls = (resolveOptions o).maxRetries + 1 ∧
      ∃ v, (retryWithBackoff op p o rand).result = .error v) ∧
    (∀ e, op 0 = .error e → p e.message 0 = false →
      retryWithBackoff op p o rand = ⟨.error e.normalize, 1, []⟩) := by
  refine ⟨?_, ?_, ?_, ?_⟩
  · exact retryAux_calls_le op p _ (resolveOptions o).maxRetries 0
  · intro r a hr hfail hok
    exact retryAux_success op p _ r 0 (resolveOptions o).maxRetries a
      (fun j hj => by simpa using hfail j hj) (by simpa using hok) (Nat.le_of_lt hr)
  · intro hall
    obtain ⟨hc, e, he, hres⟩ := retryAux_all_fail op p _ (resolveOptions o).maxRetries 0
      (fun j hj => by simpa using hall j hj)
    exact ⟨hc, e.normalize, hres⟩
  · intro e h0 hp0
    exact retryAux_reject op p _ 0 (resolveOptions o).maxRetries e h0 hp0

theorem retry_invocation_counts_witness :
    (retryWithBackoff (fun k => if k < 2 then .error (.jsError "timeout") else .ok 42)
      (fun _ _ => true) emptyRetryOptions (fun _ => 1/2)).result = .ok 42 ∧
    (retryWithBackoff (fun k => if k < 2 then .error (.jsError "timeout") else .ok 42)
      (fun _ _ => true) emptyRetryOptions (fun _ => 1/2)).calls = 2 + 1 :=
  (retry_invocation_counts (fun k => if k < 2 then .error (.jsError "timeout") else .ok 42)
      (fun _ _ => true) emptyRetryOptions (fun _ => 1/2)).2.1 2 42 (by decide)
      (fun j hj => ⟨.jsError "timeout", by rw [if_pos hj], rfl⟩) rfl

/-- Claim C8: the delay slept before retry attempt k (1-based) equals the
capped exponential min(initialDelay * backoffMultiplier ^ (k-1), maxDelay)
scaled by 1 + jitter with |jitter| at most jitterFactor, and is floored at
1 ms; the defaults are maxRetries 3, initialDelay 100, maxDelay 10000,
backoffMultiplier 2, jitterFactor 1/10. -/
theorem backoff_delay_formula {A : Type} (op : Nat → Except JsThrown A)
    (p : String → Nat → Bool) (o : RetryOptions) (rand : Nat → ℚ)
    (hj : 0 ≤ (resolveOptions o).jitterFactor)
    (hr : ∀ n, 0 ≤ rand n ∧ rand n ≤ 1) :
    resolveOptions emptyRetryOptions = ⟨3, 100, 10000, 2, 1/10⟩ ∧
    ∀ k, 1 ≤ k → k - 1 < (retryWithBackoff op p o rand).delays.length →
      (retryWithBackoff op p o rand).delays[k - 1]? =
        some (max 1 ((min ((resolveOptions o).initialDelay *
            (resolveOptions o).backoffMultiplier ^ (k - 1)) (resolveOptions o).maxDelay) *
          (1 + (2 * rand (k - 1) - 1) * (resolveOptions o).jitterFactor))) ∧
      |(2 * rand (k - 1) - 1) * (resolveOptions o).jitterFactor| ≤
        (resolveOptions o).jitterFactor ∧
      (1 : ℚ) ≤ max 1 ((min ((resolveOptions o).initialDelay *
            (resolveOptions o).backoffMultiplier ^ (k - 1)) (resolveOptions o).maxDelay) *
          (1 + (2 * rand (k - 1) - 1) * (resolveOptions o).jitterFactor)) := by
  constructor
  · rfl
  · intro k hk hlen
    have hlen2 : k - 1 < (retryAux op p
        (fun j => calculateDelay j (resolveOptions o).initialDelay (resolveOptions o).maxDelay
          (resolveOptions o).backoffMultiplier (resolveOptions o).jitterFactor (rand j))
        0 (resolveOptions o).maxRetries).delays.length := hlen
    have helt := retryAux_delays_elt op p
      (fun j => calculateDelay j (resolveOptions o).initialDelay (resolveOptions o).maxDelay
        (resolveOptions o).backoffMultiplier (resolveOptions o).jitterFactor (rand j))
      (resolveOptions o).maxRetries 0 (k - 1) hlen2
    have helt2 : (retryWithBackoff op p o rand).delays[k - 1]? =
        some (calculateDelay (0 + (k - 1)) (resolveOptions o).initialDelay
          (resolveOptions o).maxDelay (resolveOptions o).backoffMultiplier
          (resolveOptions o).jitterFactor (rand (0 + (k - 1)))) := helt
    rw [Nat.zero_add] at helt2
    refine ⟨?_, jitter_abs_le _ _ hj (hr (k - 1)).1 (hr (k - 1)).2, le_max_left 1 _⟩
    rw [helt2, calculateDelay_eq]

theorem retryAux_delays_len {A : Type} (op : Nat → Except JsThrown A) (p : String → Nat → Bool)
    (d : Nat → ℚ) :
    ∀ (fuel attempt : Nat),
      (retryAux op p d attempt fuel).delays.length = (retryAux op p d attempt fuel).calls - 1 := by
  intro fuel
  induction fuel with
  | zero =>
    intro attempt
    cases h : op attempt with
    | ok a => rw [retryAux_ok op p d attempt 0 a h]; rfl
    | error e =>
      cases hp : p e.message attempt with
      | false => rw [retryAux_reject op p d attempt 0 e h hp]; rfl
      | true => rw [retryAux_exhaust op p d attempt e h hp]; rfl
  | succ f ih =>
    intro attempt
    cases h : op attempt with
    | ok a => rw [retryAux_ok op p d attempt (f + 1) a h]; rfl
    | error e =>
      cases hp : p e.message attempt with
      | false => rw [retryAux_reject op p d attempt (f + 1) e h hp]; rfl
      | true =>
        rw [retryAux_step op p d attempt f e h hp]
        show (d attempt :: (retryAux op p d (attempt + 1) f).delays).length =
          (retryAux op p d (attempt + 1) f).calls + 1 - 1
        have := ih (attempt + 1)
        have hpos := retryAux_calls_pos op p d (attempt + 1) f
        simp only [List.length_cons]
        omega

theorem backoff_delay_formula_witness :
    resolveOptions emptyRetryOptions = ⟨3, 100, 10000, 2, 1/10⟩ ∧
    (retryWithBackoff (fun _ => (.error (.jsError "timeout") : Except JsThrown Nat))
        (fun _ _ => true) emptyRetryOptions (fun _ => 1/2)).delays[1 - 1]? =
      some (max 1 ((min ((resolveOptions emptyRetryOptions).initialDelay *
          (resolveOptions emptyRetryOptions).backoffMultiplier ^ (1 - 1))
          (resolveOptions emptyRetryOptions).maxDelay) *
        (1 + (2 * (1/2 : ℚ) - 1) * (resolveOptions emptyRetryOptions).jitterFactor))) := by
  have h := backoff_delay_formula
    (fun _ => (.error (.jsError "timeout") : Except JsThrown Nat))
    (fun _ _ => true) emptyRetryOptions (fun _ => 1/2)
    (by norm_num [resolveOptions, emptyRetryOptions])
    (fun n => ⟨by norm_num, by norm_num⟩)
  refine ⟨h.1, ?_⟩
  have hlen : 1 - 1 < (retryWithBackoff
      (fun _ => (.error (.jsError "timeout") : Except JsThrown Nat))
      (fun _ _ => true) emptyRetryOptions (fun _ => 1/2)).delays.length := by
    have hcalls := (retryAux_all_fail
      (fun _ => (.error (.jsError "timeout") : Except JsThrown Nat))
      (fun _ _ => true)
      (fun j => calculateDelay j (resolveOptions emptyRetryOptions).initialDelay
        (resolveOptions emptyRetryOptions).maxDelay
        (resolveOptions emptyRetryOptions).backoffMultiplier
        (resolveOptions emptyRetryOptions).jitterFactor ((fun _ => (1/2 : ℚ)) j))
      (resolveOptions emptyRetryOptions).maxRetries 0
      (fun j hj => ⟨.jsError "timeout", rfl, rfl⟩)).1
    have hlen2 := retryAux_delays_len
      (fun _ => (.error (.jsError "timeout") : Except JsThrown Nat))
      (fun _ _ => true)
      (fun j => calculateDelay j (resolveOptions emptyRetryOptions).initialDelay
        (resolveOptions emptyRetryOptions).maxDelay
        (resolveOptions emptyRetryOptions).backoffMultiplier
        (resolveOptions emptyRetryOptions).jitterFactor ((fun _ => (1/2 : ℚ)) j))
      (resolveOptions emptyRetryOptions).maxRetries 0
    show 1 - 1 < (retryAux
      (fun _ => (.error (.jsError "timeout") : Except JsThrown Nat))
      (fun _ _ => true)
      (fun j => calculateDelay j (resolveOptions emptyRetryOptions).initialDelay
        (resolveOptions emptyRetryOptions).maxDelay
        (resolveOptions emptyRetryOptions).backoffMultiplier
        (resolveOptions emptyRetryOptions).jitterFactor ((fun _ => (1/2 : ℚ)) j))
      0 (resolveOptions emptyRetryOptions).maxRetries).delays.length
    rw [hlen2, hcalls]
    decide
  exact (h.2 1 (le_refl 1) hlen).1

/-- Claim C9 (amended): on terminal failure the raised value is the error
produced by the last invocation after the catch-block normalization
error instanceof Error ? error : new Error(String(error)); an Error
instance is raised unchanged, while a non-Error thrown value is wrapped
in an Error carrying its String rendering. -/
theorem retry_error_propagation {A : Type} (op : Nat → Except JsThrown A)
    (p : String → Nat → Bool) (o : RetryOptions) (rand : Nat → ℚ) (v e : JsThrown)
    (hres : (retryWithBackoff op p o rand).result = .error v)
    (hop : op ((retryWithBackoff op p o rand).calls - 1) = .error e) :
    v = e.normalize := by
  obtain ⟨e2, he2, hv⟩ := retryAux_error_last op p
    (fun j => calculateDelay j (resolveOptions o).initialDelay (resolveOptions o).maxDelay
      (resolveOptions o).backoffMultiplier (resolveOptions o).jitterFactor (rand j))
    (resolveOptions o).maxRetries 0 v hres
  rw [Nat.zero_add] at he2
  have he2w : op ((retryWithBackoff op p o rand).calls - 1) = .error e2 := he2
  rw [hop] at he2w
  rw [hv, Except.error.inj he2w]

theorem retry_error_propagation_witness :
    (JsThrown.jsError "boom" : JsThrown) = (JsThrown.jsError "boom").normalize :=
  retry_error_propagation (fun _ => (.error (.jsError "boom") : Except JsThrown Nat))
    (fun _ _ => false) emptyRetryOptions (fun _ => 1/2) (.jsError "boom") (.jsError "boom")
    (by decide) rfl

/-- Claim C9 counterexample: an operation that throws the non-Error value
rendered as boom, with a rejecting predicate, raises a wrapped Error and
not the original thrown value. -/
theorem retry_error_wrapping_counterexample :
    (retryWithBackoff (fun _ => .error (.jsOther "boom")) (fun _ _ => false)
        emptyRetryOptions (fun _ => 1/2) : RetryRun Nat).result ≠
      .error (.jsOther "boom") ∧
    (retryWithBackoff (fun _ => .error (.jsOther "boom")) (fun _ _ => false)
        emptyRetryOptions (fun _ => 1/2) : RetryRun Nat).result =
      .error (.jsError "boom") := by
  constructor
  · decide
  · decide

/-- Claim C2: while the breaker is OPEN and the current time is strictly
before nextAttemptTime, execute raises a breaker-open error carrying the
remaining cooldown, leaves the state unchanged, and does not invoke the
wrapped operation. -/
theorem breaker_open_rejects {E A : Type} (o : Breaker.Options) (b : Breaker.State)
    (now t : Nat) (r : Except E A) (hs : b.state = .OPEN)
    (ht : b.nextAttemptTime = some t) (hlt : now < t) :
    Breaker.execute o b now r = (.openErr (some (t - now)), b, false) := by
  have hcond : b.state = Breaker.BState.OPEN ∧ Breaker.ltU now b.nextAttemptTime = true := by
    refine ⟨hs, ?_⟩
    rw [ht]
    simpa [Breaker.ltU] using hlt
  unfold Breaker.execute
  rw [if_pos hcond, ht]
  rfl

theorem breaker_open_rejects_witness :
    Breaker.execute Breaker.defaultOptions
        ⟨5, 0, .OPEN, some 100⟩ 40 (.ok 7 : Except String Nat) =
      (.openErr (some 60), ⟨5, 0, .OPEN, some 100⟩, false) :=
  breaker_open_rejects Breaker.defaultOptions ⟨5, 0, .OPEN, some 100⟩ 40 100 (.ok 7)
    rfl rfl (by decide)

/-- Claim C3 (amended): a failing execute in HALF_OPEN re-raises the error,
discards the accumulated success count, increments failureCount, and
transitions to OPEN with nextAttemptTime = now + timeout exactly when the
incremented failureCount reaches failureThreshold.  Because failureCount
is not reset on entering HALF_OPEN, a failure on the first probe does
reopen; after a probe success the count restarts at zero, so a single
failure then leaves the breaker in HALF_OPEN. -/
theorem breaker_halfOpen_failure {E A : Type} (o : Breaker.Options) (b : Breaker.State)
    (now : Nat) (e : E) (hs : b.state = .HALF_OPEN) :
    Breaker.execute o b now (.error e : Except E A) =
      (.err e,
       if Breaker.geU (b.failureCount + 1) o.failureThreshold then
         { b with successCount := 0, failureCount := b.failureCount + 1,
                  state := .OPEN, nextAttemptTime := Breaker.addU now o.timeout }
       else { b with successCount := 0, failureCount := b.failureCount + 1 },
       true) := by
  cases hgu : Breaker.geU (b.failureCount + 1) o.failureThreshold with
  | false => simp [Breaker.execute, hs, hgu]
  | true => simp [Breaker.execute, hs, hgu]

theorem breaker_halfOpen_failure_witness :
    Breaker.execute Breaker.defaultOptions ⟨0, 1, .HALF_OPEN, some 60000⟩ 60001
        (.error "boom" : Except String Unit) =
      (.err "boom", ⟨1, 0, .HALF_OPEN, some 60000⟩, true) :=
  breaker_halfOpen_failure Breaker.defaultOptions ⟨0, 1, .HALF_OPEN, some 60000⟩
    60001 "boom" rfl

/-- Claim C3 counterexample: a reachable HALF_OPEN breaker (five failures
at time 0, a successful probe at time 60000) stays in HALF_OPEN after a
failing call at time 60001 instead of transitioning to OPEN. -/
theorem breaker_halfOpen_failure_counterexample :
    Breaker.probedBreaker.state = .HALF_OPEN ∧
    (Breaker.execState Breaker.probedBreaker 60001 (.error "e")).state ≠ .OPEN := by
  constructor
  · decide
  · decide

/-- Claim C10: the constructor does not merge defaults per field: a
provided options object is used as is; with successThreshold missing, a
successful probe never moves a HALF_OPEN breaker to CLOSED; with timeout
missing, the transition to OPEN stores NaN as nextAttemptTime, and an
OPEN breaker whose nextAttemptTime is NaN lets the very next call
through as a probe. -/
theorem breaker_unmerged_defaults {E A : Type} :
    (∀ o : Breaker.Options, Breaker.mkOptions (some o) = o) ∧
    (∀ (o : Breaker.Options) (b : Breaker.State) (now : Nat) (a : A),
      o.successThreshold = none → b.state = .HALF_OPEN →
      ((Breaker.execute o b now (.ok a : Except E A)).2.1).state = .HALF_OPEN) ∧
    (∀ (o : Breaker.Options) (b : Breaker.State) (now : Nat) (e : E),
      o.timeout = none → b.state = .CLOSED →
      Breaker.geU (b.failureCount + 1) o.failureThreshold = true →
      ((Breaker.execute o b now (.error e : Except E A)).2.1).state = .OPEN ∧
      ((Breaker.execute o b now (.error e : Except E A)).2.1).nextAttemptTime = none) ∧
    (∀ (o : Breaker.Options) (b : Breaker.State) (now : Nat) (r : Except E A),
      b.state = .OPEN → b.nextAttemptTime = none →
      (Breaker.execute o b now r).2.2 = true) := by
  refine ⟨fun o => rfl, ?_, ?_, ?_⟩
  · intro o b now a hst hs
    simp [Breaker.execute, hs, hst, Breaker.geU]
  · intro o b now e ht hs hgu
    constructor
    · simp [Breaker.execute, hs, hgu]
    · simp [Breaker.execute, hs, hgu, ht, Breaker.addU]
  · intro o b now r hs hnat
    cases r with
    | ok a => simp [Breaker.execute, hs, hnat, Breaker.ltU]
    | error e => simp [Breaker.execute, hs, hnat, Breaker.ltU]

theorem breaker_unmerged_defaults_witness :
    ((Breaker.execute ⟨some 5, none, some 60000⟩ ⟨0, 0, .HALF_OPEN, some 0⟩ 5
        (.ok 1 : Except String Nat)).2.1).state = .HALF_OPEN :=
  (@breaker_unmerged_defaults String Nat).2.1 ⟨some 5, none, some 60000⟩
    ⟨0, 0, .HALF_OPEN, some 0⟩ 5 1 rfl rfl

/-! ## Lemmas for the rate gate -/

theorem intervalMs_eq (N : Nat) (hN : 0 < N) :
    Gate.intervalMs N = (1000 + N - 1) / N := by
  have hNQ : (0 : ℚ) < (N : ℚ) := by exact_mod_cast hN
  have hmul : 999 / N * N < 1000 := by
    have := Nat.div_mul_le_self 999 N
    omega
  have h2 : 1000 ≤ (999 / N + 1) * N := by
    have hdm := Nat.div_add_mod 999 N
    have hml := Nat.mod_lt 999 hN
    rw [add_mul, one_mul]
    linarith
  have hceil : Int.ceil ((1000 : ℚ) / N) = ((999 / N + 1 : ℕ) : ℤ) := by
    rw [Int.ceil_eq_iff]
    constructor
    · have e1 : ((((999 / N + 1 : ℕ) : ℤ)) : ℚ) - 1 = ((999 / N : ℕ) : ℚ) := by
        rw [Int.cast_natCast, Nat.cast_add, Nat.cast_one]
        ring
      rw [e1, lt_div_iff₀ hNQ]
      exact_mod_cast hmul
    · rw [div_le_iff₀ hNQ]
      exact_mod_cast h2
  have h3 : 1000 + N - 1 = 999 + N := by omega
  rw [Gate.intervalMs, hceil, Int.toNat_natCast, h3, Nat.add_div_right 999 hN]

theorem waitNow_spacing (I last now : Nat) (h : last ≤ now) :
    last + I ≤ Gate.waitNow I last now := by
  unfold Gate.waitNow
  split <;> omega

theorem waitNow_ge_now (I last now : Nat) : now ≤ Gate.waitNow I last now := by
  unfold Gate.waitNow
  split <;> omega

theorem runWaits_loop (I : Nat) :
    ∀ (gaps : List Nat) (now : Nat), now + gaps.length * I ≤ Gate.runWaits I now now gaps := by
  intro gaps
  induction gaps with
  | nil => intro now; simp [Gate.runWaits]
  | cons g gs ih =>
    intro now
    have hstep : Gate.runWaits I now now (g :: gs) =
        Gate.runWaits I (Gate.waitNow I now (now + g)) (Gate.waitNow I now (now + g)) gs := rfl
    rw [hstep]
    have h1 : now + I ≤ Gate.waitNow I now (now + g) :=
      waitNow_spacing I now (now + g) (Nat.le_add_right _ _)
    have h2 := ih (Gate.waitNow I now (now + g))
    calc now + (g :: gs).length * I = now + I + gs.length * I := by
          rw [List.length_cons, Nat.succ_mul]; ring
      _ ≤ Gate.waitNow I now (now + g) + gs.length * I := Nat.add_le_add_right h1 _
      _ ≤ _ := h2

theorem runWaits_elapsed (I : Nat) :
    ∀ (t0 : Nat) (gaps : List Nat),
      t0 + (gaps.length - 1) * I ≤ Gate.runWaits I 0 t0 gaps := by
  intro t0 gaps
  cases gaps with
  | nil => simp [Gate.runWaits]
  | cons g gs =>
    have hstep : Gate.runWaits I 0 t0 (g :: gs) =
        Gate.runWaits I (Gate.waitNow I 0 (t0 + g)) (Gate.waitNow I 0 (t0 + g)) gs := rfl
    rw [hstep]
    have h1 : t0 ≤ Gate.waitNow I 0 (t0 + g) :=
      le_trans (Nat.le_add_right t0 g) (waitNow_ge_now I 0 (t0 + g))
    have h2 := runWaits_loop I gs (Gate.waitNow I 0 (t0 + g))
    have hlen : (g :: gs).length - 1 = gs.length := by simp
    rw [hlen]
    calc t0 + gs.length * I ≤ Gate.waitNow I 0 (t0 + g) + gs.length * I :=
          Nat.add_le_add_right h1 _
      _ ≤ _ := h2

/-- Claim C4: the gate interval is the ceiling of 1000 / opsPerSecond;
consecutive releases from one gate are never closer than the interval, so
K sequential wait() calls take at least (K - 1) * interval elapsed time;
and the first call after construction does not wait once the clock is
past the interval (as any realistic clock is, being far past the epoch). -/
theorem rate_gate_spacing (N : Nat) (hN : 0 < N) :
    Gate.intervalMs N = (1000 + N - 1) / N ∧
    (∀ last now, last ≤ now →
      last + Gate.intervalMs N ≤ Gate.waitNow (Gate.intervalMs N) last now) ∧
    (∀ t0 gaps, t0 + (gaps.length - 1) * Gate.intervalMs N ≤
      Gate.runWaits (Gate.intervalMs N) 0 t0 gaps) ∧
    (∀ now, Gate.intervalMs N ≤ now → Gate.waitNow (Gate.intervalMs N) 0 now = now) := by
  refine ⟨intervalMs_eq N hN, fun last now h => waitNow_spacing _ last now h,
    fun t0 gaps => runWaits_elapsed _ t0 gaps, fun now h => ?_⟩
  have h2 : ¬(now - 0 < Gate.intervalMs N) := by omega
  unfold Gate.waitNow
  rw [if_neg h2]

theorem rate_gate_spacing_witness :
    Gate.intervalMs 6 = 167 ∧ Gate.waitNow (Gate.intervalMs 6) 0 1000 = 1000 := by
  have h := rate_gate_spacing 6 (by decide)
  have h1 : Gate.intervalMs 6 = 167 := by rw [h.1]
  exact ⟨h1, h.2.2.2 1000 (by rw [h1]; decide)⟩

/-! ## Lemmas about the Map model -/

theorem hasKey_cons {β : Type} (p : String × β) (t : List (String × β)) (k : String) :
    hasKey (p :: t) k = (p.1 == k || hasKey t k) := by
  simp [hasKey]

theorem hasKey_iff {β : Type} (m : List (String × β)) (k : String) :
    hasKey m k = true ↔ k ∈ m.map Prod.fst := by
  simp [hasKey, List.any_eq_true, List.mem_map]

theorem hasKey_false_iff {β : Type} (m : List (String × β)) (k : String) :
    hasKey m k = false ↔ k ∉ m.map Prod.fst := by
  rw [← hasKey_iff]
  cases hasKey m k <;> simp

theorem mapGet_cons_self {β : Type} (p : String × β) (t : List (String × β)) (k : String)
    (h : p.1 = k) : mapGet (p :: t) k = some p.2 := by
  unfold mapGet
  rw [List.find?_cons_of_pos _ (by simp [h])]
  rfl

theorem mapGet_cons_ne {β : Type} (p : String × β) (t : List (String × β)) (k : String)
    (h : ¬ p.1 = k) : mapGet (p :: t) k = mapGet t k := by
  unfold mapGet
  rw [List.find?_cons_of_neg _ (by simp [h])]

theorem mapGet_isSome_eq_hasKey {β : Type} :
    ∀ (m : List (String × β)) (k : String), (mapGet m k).isSome = hasKey m k := by
  intro m k
  induction m with
  | nil => simp [mapGet, hasKey]
  | cons p t ih =>
    by_cases hp : p.1 = k
    · rw [mapGet_cons_self p t k hp, hasKey_cons]
      simp [hp]
    · rw [mapGet_cons_ne p t k hp, hasKey_cons, ih]
      simp [hp]

theorem mapGet_append_of_none {β : Type} :
    ∀ (m l : List (String × β)) (k : String), mapGet m k = none →
      mapGet (m ++ l) k = mapGet l k := by
  intro m l k h
  induction m with
  | nil => simp
  | cons p t ih =>
    by_cases hp : p.1 = k
    · rw [mapGet_cons_self p t k hp] at h
      exact absurd h (by simp)
    · rw [mapGet_cons_ne p t k hp] at h
      rw [List.cons_append, mapGet_cons_ne p _ k hp]
      exact ih h

theorem mapGet_append_of_some {β : Type} :
    ∀ (m l : List (String × β)) (k : String) (v : β), mapGet m k = some v →
      mapGet (m ++ l) k = some v := by
  intro m l k v h
  induction m with
  | nil => simp [mapGet] at h
  | cons p t ih =>
    by_cases hp : p.1 = k
    · rw [mapGet_cons_self p t k hp] at h
      rw [List.cons_append, mapGet_cons_self p _ k hp]
      exact h
    · rw [mapGet_cons_ne p t k hp] at h
      rw [List.cons_append, mapGet_cons_ne p _ k hp]
      exact ih h

theorem mapGet_none_of_not_has {β : Type} (m : List (String × β)) (k : String)
    (h : hasKey m k = false) : mapGet m k = none := by
  have := mapGet_isSome_eq_hasKey m k
  rw [h] at this
  cases hm : mapGet m k with
  | none => rfl
  | some v => rw [hm] at this; simp at this

theorem mapGet_mapSet_self {β : Type} :
    ∀ (m : List (String × β)) (k : String) (v : β), mapGet (mapSet m k v) k = some v := by
  intro m k v
  induction m with
  | nil =>
    show mapGet (mapSet [] k v) k = some v
    unfold mapSet
    rw [if_neg (by simp [hasKey])]
    simpa using mapGet_cons_self (k, v) [] k rfl
  | cons p t ih =>
    by_cases hpk : p.1 = k
    · have hh : hasKey (p :: t) k = true := by rw [hasKey_cons]; simp [hpk]
      unfold mapSet
      rw [if_pos hh, List.map_cons,
        show (if (p.1 == k) = true then (k, v) else p) = (k, v) from by simp [hpk]]
      exact mapGet_cons_self (k, v) _ k rfl
    · cases ht : hasKey t k with
      | true =>
        have hh : hasKey (p :: t) k = true := by rw [hasKey_cons]; simp [hpk, ht]
        unfold mapSet
        rw [if_pos hh, List.map_cons,
          show (if (p.1 == k) = true then (k, v) else p) = p from by simp [hpk]]
        rw [mapGet_cons_ne p _ k hpk]
        have h2 := ih
        unfold mapSet at h2
        rw [if_pos ht] at h2
        exact h2
      | false =>
        have hh : hasKey (p :: t) k = false := by rw [hasKey_cons]; simp [hpk, ht]
        unfold mapSet
        rw [if_neg (by simp [hh]), List.cons_append, mapGet_cons_ne p _ k hpk]
        have h2 := ih
        unfold mapSet at h2
        rw [if_neg (by simp [ht])] at h2
        exact h2

theorem mapGet_mapReplace_ne {β : Type} (k : String) (v : β) :
    ∀ (m : List (String × β)) (k2 : String), k2 ≠ k →
      mapGet (m.map (fun p => if p.1 == k then (k, v) else p)) k2 = mapGet m k2 := by
  intro m k2 hne
  induction m with
  | nil => rfl
  | cons p t ih =>
    rw [List.map_cons]
    by_cases hpk : p.1 = k
    · rw [show (if (p.1 == k) = true then (k, v) else p) = (k, v) from by simp [hpk]]
      rw [mapGet_cons_ne (k, v) _ k2 (by simpa using (Ne.symm hne)),
        mapGet_cons_ne p t k2 (by rw [hpk]; exact Ne.symm hne)]
      exact ih
    · rw [show (if (p.1 == k) = true then (k, v) else p) = p from by simp [hpk]]
      by_cases hpk2 : p.1 = k2
      · rw [mapGet_cons_self p _ k2 hpk2, mapGet_cons_self p t k2 hpk2]
      · rw [mapGet_cons_ne p _ k2 hpk2, mapGet_cons_ne p t k2 hpk2]
        exact ih

theorem mapGet_mapSet_ne {β : Type} (m : List (String × β)) (k k2 : String) (v : β)
    (hne : k2 ≠ k) : mapGet (mapSet m k v) k2 = mapGet m k2 := by
  unfold mapSet
  by_cases h : hasKey m k = true
  · rw [if_pos h]
    exact mapGet_mapReplace_ne k v m k2 hne
  · rw [if_neg h]
    cases hm : mapGet m k2 with
    | none =>
      rw [mapGet_append_of_none m _ k2 hm]
      exact mapGet_cons_ne (k, v) [] k2 (Ne.symm hne)
    | some w => exact mapGet_append_of_some m _ k2 w hm

theorem keys_mapSet_of_has {β : Type} (m : List (String × β)) (k : String) (v : β)
    (h : hasKey m k = true) : (mapSet m k v).map Prod.fst = m.map Prod.fst := by
  unfold mapSet
  rw [if_pos h, List.map_map]
  apply List.map_congr_left
  intro p _
  by_cases hpk : p.1 = k
  · simp [hpk]
  · simp [hpk]

theorem keys_mapSet_of_not {β : Type} (m : List (String × β)) (k : String) (v : β)
    (h : hasKey m k = false) : (mapSet m k v).map Prod.fst = m.map Prod.fst ++ [k] := by
  unfold mapSet
  rw [if_neg (by simp [h])]
  simp

theorem length_mapSet_of_has {β : Type} (m : List (String × β)) (k : String) (v : β)
    (h : hasKey m k = true) : (mapSet m k v).length = m.length := by
  unfold mapSet
  rw [if_pos h]
  simp

theorem length_mapSet_of_not {β : Type} (m : List (String × β)) (k : String) (v : β)
    (h : hasKey m k = false) : (mapSet m k v).length = m.length + 1 := by
  unfold mapSet
  rw [if_neg (by simp [h])]
  simp

theorem mapDelete_cons_self {β : Type} (p : String × β) (t : List (String × β)) (k : String)
    (h : p.1 = k) : mapDelete (p :: t) k = mapDelete t k := by
  simp [mapDelete, h]

theorem mapDelete_cons_ne {β : Type} (p : String × β) (t : List (String × β)) (k : String)
    (h : ¬ p.1 = k) : mapDelete (p :: t) k = p :: mapDelete t k := by
  simp [mapDelete, h]

theorem mapGet_mapDelete_self {β : Type} :
    ∀ (m : List (String × β)) (k : String), mapGet (mapDelete m k) k = none := by
  intro m k
  induction m with
  | nil => rfl
  | cons p t ih =>
    by_cases hpk : p.1 = k
    · rw [mapDelete_cons_self p t k hpk]
      exact ih
    · rw [mapDelete_cons_ne p t k hpk, mapGet_cons_ne p _ k hpk]
      exact ih

theorem mapGet_mapDelete_ne {β : Type} (m : List (String × β)) (k k2 : String)
    (hne : k2 ≠ k) : mapGet (mapDelete m k) k2 = mapGet m k2 := by
  induction m with
  | nil => rfl
  | cons p t ih =>
    by_cases hpk : p.1 = k
    · rw [mapDelete_cons_self p t k hpk, mapGet_cons_ne p t k2 (by rw [hpk]; exact Ne.symm hne)]
      exact ih
    · rw [mapDelete_cons_ne p t k hpk]
      by_cases hpk2 : p.1 = k2
      · rw [mapGet_cons_self p _ k2 hpk2, mapGet_cons_self p t k2 hpk2]
      · rw [mapGet_cons_ne p _ k2 hpk2, mapGet_cons_ne p t k2 hpk2]
        exact ih

theorem keys_mapDelete {β : Type} :
    ∀ (m : List (String × β)) (k : String),
      (mapDelete m k).map Prod.fst = (m.map Prod.fst).filter (fun x => !(x == k)) := by
  intro m k
  induction m with
  | nil => rfl
  | cons p t ih =>
    by_cases hpk : p.1 = k
    · rw [mapDelete_cons_self p t k hpk, List.map_cons, List.filter_cons]
      simp [hpk, ih]
    · rw [mapDelete_cons_ne p t k hpk, List.map_cons, List.map_cons, List.filter_cons]
      simp [hpk, ih]

theorem mapDelete_of_not_has {β : Type} :
    ∀ (m : List (String × β)) (k : String), hasKey m k = false → mapDelete m k = m := by
  intro m k h
  induction m with
  | nil => rfl
  | cons p t ih =>
    rw [hasKey_cons] at h
    simp only [Bool.or_eq_false_iff] at h
    rw [mapDelete_cons_ne p t k (by simpa using h.1)]
    rw [ih h.2]

theorem length_mapDelete_le {β : Type} (m : List (String × β)) (k : String) :
    (mapDelete m k).length ≤ m.length :=
  List.length_filter_le _ m

theorem length_mapDelete_of_has {β : Type} :
    ∀ (m : List (String × β)) (k : String), (m.map Prod.fst).Nodup →
      hasKey m k = true → (mapDelete m k).length + 1 = m.length := by
  intro m k hn h
  induction m with
  | nil => simp [hasKey] at h
  | cons p t ih =>
    rw [List.map_cons, List.nodup_cons] at hn
    by_cases hpk : p.1 = k
    · rw [mapDelete_cons_self p t k hpk]
      have ht : hasKey t k = false := by
        rw [hasKey_false_iff]
        rw [hpk] at hn
        exact hn.1
      rw [mapDelete_of_not_has t k ht]
      simp
    · rw [hasKey_cons] at h
      simp only [Bool.or_eq_true_iff] at h
      have ht : hasKey t k = true := by
        rcases h with h1 | h2
        · exact absurd (by simpa using h1) hpk
        · exact h2
      rw [mapDelete_cons_ne p t k hpk]
      simp only [List.length_cons]
      rw [← ih hn.2 ht]

theorem hasKey_mapSet_self {β : Type} (m : List (String × β)) (k : String) (v : β) :
    hasKey (mapSet m k v) k = true := by
  rw [← mapGet_isSome_eq_hasKey, mapGet_mapSet_self]
  rfl

theorem hasKey_mapSet_ne {β : Type} (m : List (String × β)) (k k2 : String) (v : β)
    (hne : k2 ≠ k) : hasKey (mapSet m k v) k2 = hasKey m k2 := by
  rw [← mapGet_isSome_eq_hasKey, ← mapGet_isSome_eq_hasKey, mapGet_mapSet_ne m k k2 v hne]

theorem hasKey_mapDelete_self {β : Type} (m : List (String × β)) (k : String) :
    hasKey (mapDelete m k) k = false := by
  rw [← mapGet_isSome_eq_hasKey, mapGet_mapDelete_self]
  rfl

theorem hasKey_mapDelete_ne {β : Type} (m : List (String × β)) (k k2 : String)
    (hne : k2 ≠ k) : hasKey (mapDelete m k) k2 = hasKey m k2 := by
  rw [← mapGet_isSome_eq_hasKey, ← mapGet_isSome_eq_hasKey, mapGet_mapDelete_ne m k k2 hne]

theorem nodup_keys_mapSet {β : Type} (m : List (String × β)) (k : String) (v : β)
    (hn : (m.map Prod.fst).Nodup) : ((mapSet m k v).map Prod.fst).Nodup := by
  cases h : hasKey m k with
  | true => rw [keys_mapSet_of_has m k v h]; exact hn
  | false =>
    rw [keys_mapSet_of_not m k v h, List.nodup_append]
    refine ⟨hn, by simp, ?_⟩
    intro a ha hb
    simp only [List.mem_singleton] at hb
    rw [hb] at ha
    exact (hasKey_false_iff m k).mp h ha

theorem nodup_keys_mapDelete {β : Type} (m : List (String × β)) (k : String)
    (hn : (m.map Prod.fst).Nodup) : ((mapDelete m k).map Prod.fst).Nodup := by
  rw [keys_mapDelete]
  exact (List.filter_sublist _).nodup hn

theorem mem_keys_mapDelete {β : Type} (m : List (String × β)) (k k2 : String) :
    k2 ∈ (mapDelete m k).map Prod.fst ↔ k2 ≠ k ∧ k2 ∈ m.map Prod.fst := by
  rw [keys_mapDelete, List.mem_filter]
  simp [and_comm]

/-! ## Invariant preservation for the TTL cache -/

theorem inv_get {T : Type} (c : Cache.TtlCache T) (k : String) (now : Nat)
    (h : Cache.Inv c) : Cache.Inv (Cache.get c k now).2 := by
  unfold Cache.Inv at h
  obtain ⟨hnk, hno, hmem, hlen⟩ := h
  unfold Cache.Inv
  cases hm : mapGet c.cache k with
  | none =>
    simp only [Cache.get, hm]
    exact ⟨hnk, hno, hmem, hlen⟩
  | some e =>
    by_cases hexp : e.expiresAt ≤ now
    · simp only [Cache.get, hm, if_pos hexp]
      refine ⟨nodup_keys_mapDelete _ _ hnk, hno.erase k, ?_, ?_⟩
      · intro k2
        rw [hno.mem_erase_iff, mem_keys_mapDelete, hmem k2]
      · exact le_trans (length_mapDelete_le _ _) hlen
    · simp only [Cache.get, hm, if_neg hexp]
      have hkmem : k ∈ c.cache.map Prod.fst := by
        rw [← hasKey_iff, ← mapGet_isSome_eq_hasKey, hm]
        rfl
      refine ⟨hnk, ?_, ?_, hlen⟩
      · rw [List.nodup_append]
        refine ⟨hno.erase k, by simp, ?_⟩
        intro a ha hb
        simp only [List.mem_singleton] at hb
        rw [hb] at ha
        exact absurd ((hno.mem_erase_iff).mp ha).1 (by simp)
      · intro k2
        by_cases hk2 : k2 = k
        · simp [hk2, hkmem]
        · simp [List.mem_append, hno.mem_erase_iff, hk2, hmem k2]

theorem inv_has {T : Type} (c : Cache.TtlCache T) (k : String) (now : Nat)
    (h : Cache.Inv c) : Cache.Inv (Cache.has c k now).2 := by
  unfold Cache.Inv at h
  obtain ⟨hnk, hno, hmem, hlen⟩ := h
  unfold Cache.Inv
  cases hm : mapGet c.cache k with
  | none =>
    simp only [Cache.has, hm]
    exact ⟨hnk, hno, hmem, hlen⟩
  | some e =>
    by_cases hexp : e.expiresAt ≤ now
    · simp only [Cache.has, hm, if_pos hexp]
      refine ⟨nodup_keys_mapDelete _ _ hnk, hno.erase k, ?_, ?_⟩
      · intro k2
        rw [hno.mem_erase_iff, mem_keys_mapDelete, hmem k2]
      · exact le_trans (length_mapDelete_le _ _) hlen
    · simp only [Cache.has, hm, if_neg hexp]
      exact ⟨hnk, hno, hmem, hlen⟩

theorem inv_delete {T : Type} (c : Cache.TtlCache T) (k : String)
    (h : Cache.Inv c) : Cache.Inv (Cache.delete c k).2 := by
  unfold Cache.Inv at h
  obtain ⟨hnk, hno, hmem, hlen⟩ := h
  unfold Cache.Inv
  simp only [Cache.delete]
  refine ⟨nodup_keys_mapDelete _ _ hnk, hno.erase k, ?_, ?_⟩
  · intro k2
    rw [hno.mem_erase_iff, mem_keys_mapDelete, hmem k2]
  · exact le_trans (length_mapDelete_le _ _) hlen

theorem inv_clear {T : Type} (c : Cache.TtlCache T) : Cache.Inv (Cache.clear c) := by
  unfold Cache.Inv Cache.clear
  simp

theorem noempty_mapDelete {β : Type} (m : List (String × β)) (k : String)
    (hne : "" ∉ m.map Prod.fst) : "" ∉ (mapDelete m k).map Prod.fst :=
  fun hmem2 => hne ((mem_keys_mapDelete m k "").mp hmem2).2

theorem noempty_get {T : Type} (c : Cache.TtlCache T) (k : String) (now : Nat)
    (hne : Cache.NoEmptyKey c) : Cache.NoEmptyKey (Cache.get c k now).2 := by
  unfold Cache.NoEmptyKey at hne ⊢
  cases hm : mapGet c.cache k with
  | none => simp only [Cache.get, hm]; exact hne
  | some e =>
    by_cases hexp : e.expiresAt ≤ now
    · simp only [Cache.get, hm, if_pos hexp]
      exact noempty_mapDelete _ _ hne
    · simp only [Cache.get, hm, if_neg hexp]
      exact hne

theorem noempty_has {T : Type} (c : Cache.TtlCache T) (k : String) (now : Nat)
    (hne : Cache.NoEmptyKey c) : Cache.NoEmptyKey (Cache.has c k now).2 := by
  unfold Cache.NoEmptyKey at hne ⊢
  cases hm : mapGet c.cache k with
  | none => simp only [Cache.has, hm]; exact hne
  | some e =>
    by_cases hexp : e.expiresAt ≤ now
    · simp only [Cache.has, hm, if_pos hexp]
      exact noempty_mapDelete _ _ hne
    · simp only [Cache.has, hm, if_neg hexp]
      exact hne

theorem noempty_delete {T : Type} (c : Cache.TtlCache T) (k : String)
    (hne : Cache.NoEmptyKey c) : Cache.NoEmptyKey (Cache.delete c k).2 := by
  unfold Cache.NoEmptyKey at hne ⊢
  simp only [Cache.delete]
  exact noempty_mapDelete _ _ hne

theorem noempty_clear {T : Type} (c : Cache.TtlCache T) :
    Cache.NoEmptyKey (Cache.clear c) := by
  unfold Cache.NoEmptyKey Cache.clear
  simp

theorem noempty_foldl_delete {T : Type} :
    ∀ (ks : List String) (c : Cache.TtlCache T), Cache.NoEmptyKey c →
      Cache.NoEmptyKey (ks.foldl (fun acc k2 => (Cache.delete acc k2).2) c) := by
  intro ks
  induction ks with
  | nil => intro c hne; exact hne
  | cons k2 t ih =>
    intro c hne
    exact ih _ (noempty_delete c k2 hne)

theorem noempty_cleanup {T : Type} (c : Cache.TtlCache T) (now : Nat)
    (hne : Cache.NoEmptyKey c) : Cache.NoEmptyKey (Cache.cleanup c now).2 := by
  simp only [Cache.cleanup]
  exact noempty_foldl_delete _ c hne

theorem inv_set {T : Type} (c : Cache.TtlCache T) (k : String) (v : T) (ttl : Option Nat)
    (now : Nat) (h : Cache.Inv c) (hkey : k ≠ "") (hne2 : Cache.NoEmptyKey c) :
    Cache.Inv (Cache.set c k v ttl now) ∧ Cache.NoEmptyKey (Cache.set c k v ttl now) := by
  unfold Cache.Inv at h
  obtain ⟨hnk, hno, hmem, hlen⟩ := h
  unfold Cache.Inv Cache.NoEmptyKey
  unfold Cache.NoEmptyKey at hne2
  by_cases hk : hasKey c.cache k = true
  · have hlen1 : (mapSet c.cache k ⟨v, now + ttl.getD c.defaultTtl⟩).length = c.cache.length :=
      length_mapSet_of_has _ _ _ hk
    have hcap : ¬(c.maxSize < (mapSet c.cache k
        ⟨v, now + ttl.getD c.defaultTtl⟩).length) := by
      rw [hlen1]
      omega
    have hkmem : k ∈ c.cache.map Prod.fst := (hasKey_iff _ _).mp hk
    simp only [Cache.set, hk, if_true, if_neg hcap]
    refine ⟨⟨?_, ?_, ?_, ?_⟩, ?_⟩
    · rw [keys_mapSet_of_has _ _ _ hk]
      exact hnk
    · rw [List.nodup_append]
      refine ⟨hno.erase k, by simp, ?_⟩
      intro a ha hb
      simp only [List.mem_singleton] at hb
      rw [hb] at ha
      exact absurd ((hno.mem_erase_iff).mp ha).1 (by simp)
    · intro k2
      rw [keys_mapSet_of_has _ _ _ hk]
      by_cases hk2 : k2 = k
      · simp [hk2, hkmem]
      · simp [List.mem_append, hno.mem_erase_iff, hk2, hmem k2]
    · rw [hlen1]
      exact hlen
    · rw [keys_mapSet_of_has _ _ _ hk]
      exact hne2
  · have hkf : hasKey c.cache k = false := by
      cases hh : hasKey c.cache k
      · rfl
      · exact absurd hh hk
    have hknot : k ∉ c.cache.map Prod.fst := (hasKey_false_iff _ _).mp hkf
    have hkorder : k ∉ c.accessOrder := fun hmem2 => hknot ((hmem k).mp hmem2)
    have hlen1 : (mapSet c.cache k ⟨v, now + ttl.getD c.defaultTtl⟩).length =
        c.cache.length + 1 := length_mapSet_of_not _ _ _ hkf
    have hkeys1 : (mapSet c.cache k ⟨v, now + ttl.getD c.defaultTtl⟩).map Prod.fst =
        c.cache.map Prod.fst ++ [k] := keys_mapSet_of_not _ _ _ hkf
    have hnk1 : ((mapSet c.cache k ⟨v, now + ttl.getD c.defaultTtl⟩).map Prod.fst).Nodup :=
      nodup_keys_mapSet _ _ _ hnk
    by_cases hcap : c.maxSize < c.cache.length + 1
    · have hsz : c.cache.length = c.maxSize := by omega
      have hcap2 : c.maxSize < (mapSet c.cache k
          ⟨v, now + ttl.getD c.defaultTtl⟩).length := by
        rw [hlen1]
        exact hcap
      cases horder : c.accessOrder with
      | nil =>
        have hcache : c.cache = [] := by
          cases hc : c.cache with
          | nil => rfl
          | cons q t =>
            exfalso
            have hq : q.1 ∈ c.cache.map Prod.fst := by rw [hc]; simp
            have h2 := (hmem q.1).mpr hq
            rw [horder] at h2
            exact absurd h2 (List.not_mem_nil _)
        have hms : c.maxSize = 0 := by
          rw [hcache] at hsz
          simpa using hsz.symm
        have hset : Cache.set c k v ttl now = { c with cache := [], accessOrder := [] } := by
          simp [Cache.set, hkf, hcache, horder, hms, mapSet, hasKey, mapDelete, hkey]
        rw [hset]
        exact ⟨⟨by simp, by simp, by simp, by simp⟩, by simp⟩
      | cons o os =>
        have hoorder : o ∈ c.accessOrder := by rw [horder]; simp
        have homem : o ∈ c.cache.map Prod.fst := (hmem o).mp hoorder
        have honek : ¬(o = k) := fun he => hknot (he ▸ homem)
        have hnoos : os.Nodup ∧ o ∉ os := by
          rw [horder] at hno
          rw [List.nodup_cons] at hno
          exact ⟨hno.2, hno.1⟩
        have hkos : k ∉ os := fun hin => hkorder (by rw [horder]; exact List.mem_cons_of_mem o hin)
        have hhas1 : hasKey (mapSet c.cache k ⟨v, now + ttl.getD c.defaultTtl⟩) o = true := by
          rw [hasKey_iff, hkeys1]
          exact List.mem_append_left _ homem
        have honee : ¬(o = "") := fun he => hne2 (he ▸ homem)
        simp only [Cache.set, hkf, Bool.false_eq_true, if_false, horder,
          List.cons_append, if_pos hcap2, if_neg honee]
        refine ⟨⟨?_, ?_, ?_, ?_⟩, ?_⟩
        · exact nodup_keys_mapDelete _ _ hnk1
        · rw [List.nodup_append]
          exact ⟨hnoos.1, by simp, fun a ha hb => by
            simp only [List.mem_singleton] at hb
            rw [hb] at ha
            exact hkos ha⟩
        · intro k2
          rw [mem_keys_mapDelete, hkeys1]
          simp only [List.mem_append, List.mem_singleton]
          constructor
          · rintro (h2 | h2)
            · refine ⟨?_, Or.inl ((hmem k2).mp (by rw [horder]; exact List.mem_cons_of_mem o h2))⟩
              intro he
              rw [he] at h2
              exact hnoos.2 h2
            · rw [h2]
              exact ⟨fun he => honek he.symm, Or.inr rfl⟩
          · rintro ⟨hne, h2 | h2⟩
            · have h3 := (hmem k2).mpr h2
              rw [horder] at h3
              rcases List.mem_cons.mp h3 with h4 | h4
              · exact absurd h4 hne
              · exact Or.inl h4
            · exact Or.inr h2
        · have := length_mapDelete_of_has (mapSet c.cache k ⟨v, now + ttl.getD c.defaultTtl⟩)
            o hnk1 hhas1
          omega
        · intro hmm
          obtain ⟨hmo, hm2⟩ := (mem_keys_mapDelete _ _ _).mp hmm
          rw [hkeys1] at hm2
          rcases List.mem_append.mp hm2 with h2 | h2
          · exact hne2 h2
          · exact hkey (List.mem_singleton.mp h2).symm
    · have hcap2 : ¬(c.maxSize < (mapSet c.cache k
          ⟨v, now + ttl.getD c.defaultTtl⟩).length) := by
        rw [hlen1]
        exact hcap
      simp only [Cache.set, hkf, Bool.false_eq_true, if_false, if_neg hcap2]
      refine ⟨⟨hnk1, ?_, ?_, ?_⟩, ?_⟩
      · rw [List.nodup_append]
        exact ⟨hno, by simp, fun a ha hb => by
          simp only [List.mem_singleton] at hb
          rw [hb] at ha
          exact hkorder ha⟩
      · intro k2
        rw [hkeys1]
        simp only [List.mem_append, List.mem_singleton, hmem k2]
      · omega
      · intro hmm
        rw [hkeys1] at hmm
        rcases List.mem_append.mp hmm with h2 | h2
        · exact hne2 h2
        · exact hkey (List.mem_singleton.mp h2).symm

theorem inv_foldl_delete {T : Type} :
    ∀ (ks : List String) (c : Cache.TtlCache T), Cache.Inv c →
      Cache.Inv (ks.foldl (fun acc k2 => (Cache.delete acc k2).2) c) := by
  intro ks
  induction ks with
  | nil => intro c h; exact h
  | cons k2 t ih =>
    intro c h
    exact ih _ (inv_delete c k2 h)

theorem inv_cleanup {T : Type} (c : Cache.TtlCache T) (now : Nat)
    (h : Cache.Inv c) : Cache.Inv (Cache.cleanup c now).2 := by
  simp only [Cache.cleanup]
  exact inv_foldl_delete _ c h

theorem inv_applyOp {T : Type} (c : Cache.TtlCache T) (op : Cache.CacheOp T)
    (h : Cache.Inv c) (hne : Cache.NoEmptyKey c) (hg : Cache.goodOp op) :
    Cache.Inv (Cache.applyOp c op) ∧ Cache.NoEmptyKey (Cache.applyOp c op) := by
  cases op with
  | get k now => exact ⟨inv_get c k now h, noempty_get c k now hne⟩
  | set k v ttl now => exact inv_set c k v ttl now h hg hne
  | has k now => exact ⟨inv_has c k now h, noempty_has c k now hne⟩
  | del k => exact ⟨inv_delete c k h, noempty_delete c k hne⟩
  | clear => exact ⟨inv_clear c, noempty_clear c⟩
  | cleanup now => exact ⟨inv_cleanup c now h, noempty_cleanup c now hne⟩

/-- Claim C5 (amended): on a cache none of whose live keys is the empty
string, after any mutating operation whose set key is nonempty, the
number of live entries stays within maxSize and the access order lists
exactly the live keys without duplicates (and no live key becomes the
empty string); inserting a new key at capacity evicts the front of the
access order, the least recently touched key, and only that key,
provided that front key is nonempty.  When the front key is the empty
string, the truthiness guard of the source skips the map delete: the key
leaves the access order but its entry survives, so the size can exceed
maxSize.  A set on an existing key, or a get hit, still moves that key
to the most-recently-touched position at the end of the access order. -/
theorem cache_lru_invariants {T : Type} (c : Cache.TtlCache T) (h : Cache.Inv c) :
    (∀ op, Cache.NoEmptyKey c → Cache.goodOp op →
      Cache.Inv (Cache.applyOp c op) ∧ Cache.NoEmptyKey (Cache.applyOp c op)) ∧
    (∀ k v ttl now lru, hasKey c.cache k = false → c.cache.length = c.maxSize →
      c.accessOrder.head? = some lru → lru ≠ "" →
      hasKey (Cache.set c k v ttl now).cache lru = false ∧
      hasKey (Cache.set c k v ttl now).cache k = true ∧
      (∀ k2, k2 ≠ lru → k2 ≠ k →
        hasKey (Cache.set c k v ttl now).cache k2 = hasKey c.cache k2)) ∧
    (∀ k v ttl now, hasKey c.cache k = true →
      (Cache.set c k v ttl now).accessOrder = c.accessOrder.erase k ++ [k]) ∧
    (∀ k now v, (Cache.get c k now).1 = some v →
      ((Cache.get c k now).2).accessOrder = c.accessOrder.erase k ++ [k]) := by
  have hlen : c.cache.length ≤ c.maxSize := h.2.2.2
  have hmem : ∀ k2, k2 ∈ c.accessOrder ↔ k2 ∈ c.cache.map Prod.fst := h.2.2.1
  refine ⟨fun op hne hg => inv_applyOp c op h hne hg, ?_, ?_, ?_⟩
  · intro k v ttl now lru hkf hsz hhead hlru
    cases horder : c.accessOrder with
    | nil => rw [horder] at hhead; exact absurd hhead (by simp)
    | cons o os =>
      rw [horder] at hhead
      have ho : o = lru := by simpa using hhead
      subst ho
      have hknot : k ∉ c.cache.map Prod.fst := (hasKey_false_iff _ _).mp hkf
      have homem : o ∈ c.cache.map Prod.fst :=
        (hmem o).mp (by rw [horder]; exact List.mem_cons_self o os)
      have honek : ¬(k = o) := fun he => hknot (he ▸ homem)
      have hlen1 : (mapSet c.cache k ⟨v, now + ttl.getD c.defaultTtl⟩).length =
          c.cache.length + 1 := length_mapSet_of_not _ _ _ hkf
      have hcap : c.maxSize < (mapSet c.cache k
          ⟨v, now + ttl.getD c.defaultTtl⟩).length := by
        rw [hlen1]
        omega
      have honee : ¬(o = "") := hlru
      have hset : Cache.set c k v ttl now =
          { c with cache := mapDelete (mapSet c.cache k ⟨v, now + ttl.getD c.defaultTtl⟩) o,
                   accessOrder := os ++ [k] } := by
        simp only [Cache.set, hkf, Bool.false_eq_true, if_false, horder,
          List.cons_append, if_pos hcap, if_neg honee]
      rw [hset]
      refine ⟨hasKey_mapDelete_self _ _, ?_, ?_⟩
      · rw [hasKey_mapDelete_ne _ _ _ honek]
        exact hasKey_mapSet_self _ _ _
      · intro k2 hk2o hk2k
        rw [hasKey_mapDelete_ne _ _ _ hk2o, hasKey_mapSet_ne _ _ _ _ hk2k]
  · intro k v ttl now hk
    have hlen1 : (mapSet c.cache k ⟨v, now + ttl.getD c.defaultTtl⟩).length =
        c.cache.length := length_mapSet_of_has _ _ _ hk
    have hcap : ¬(c.maxSize < (mapSet c.cache k
        ⟨v, now + ttl.getD c.defaultTtl⟩).length) := by
      rw [hlen1]
      omega
    simp only [Cache.set, hk, if_true, if_neg hcap]
  · intro k now v hv
    cases hm : mapGet c.cache k with
    | none =>
      rw [show (Cache.get c k now).1 = none from by simp [Cache.get, hm]] at hv
      exact absurd hv (by simp)
    | some e =>
      by_cases hexp : e.expiresAt ≤ now
      · rw [show (Cache.get c k now).1 = none from by simp [Cache.get, hm, if_pos hexp]] at hv
        exact absurd hv (by simp)
      · simp only [Cache.get, hm, if_neg hexp]

theorem cache_lru_invariants_witness :
    Cache.Inv (Cache.applyOp (⟨[("a", ⟨1, 10⟩)], ["a"], 1000, 2⟩ : Cache.TtlCache Nat)
      (Cache.CacheOp.set "b" 2 none 5)) ∧
    Cache.NoEmptyKey (Cache.applyOp (⟨[("a", ⟨1, 10⟩)], ["a"], 1000, 2⟩ :
      Cache.TtlCache Nat) (Cache.CacheOp.set "b" 2 none 5)) := by
  have hinv : Cache.Inv (⟨[("a", ⟨1, 10⟩)], ["a"], 1000, 2⟩ : Cache.TtlCache Nat) := by
    unfold Cache.Inv
    exact ⟨by simp, by simp, fun k2 => by simp, by simp⟩
  exact (cache_lru_invariants _ hinv).1 _ (by unfold Cache.NoEmptyKey; decide)
    (by unfold Cache.goodOp; decide)

/-- Claim C5 counterexample: starting from a well-formed empty cache of
maxSize 1, inserting under the empty-string key and then under a second
key leaves two live entries (the size exceeds maxSize) and an access
order that no longer lists the live empty-string key: the truthiness
guard on the shifted key skips the map delete. -/
theorem cache_lru_truthiness_counterexample :
    Cache.Inv (⟨[], [], 1000, 1⟩ : Cache.TtlCache Nat) ∧
    (Cache.set (Cache.set (⟨[], [], 1000, 1⟩ : Cache.TtlCache Nat) "" 1 none 0)
        "x" 2 none 0).cache.length = 2 ∧
    ¬((Cache.set (Cache.set (⟨[], [], 1000, 1⟩ : Cache.TtlCache Nat) "" 1 none 0)
        "x" 2 none 0).cache.length ≤
      (Cache.set (Cache.set (⟨[], [], 1000, 1⟩ : Cache.TtlCache Nat) "" 1 none 0)
        "x" 2 none 0).maxSize) ∧
    hasKey (Cache.set (Cache.set (⟨[], [], 1000, 1⟩ : Cache.TtlCache Nat) "" 1 none 0)
        "x" 2 none 0).cache "" = true ∧
    "" ∉ (Cache.set (Cache.set (⟨[], [], 1000, 1⟩ : Cache.TtlCache Nat) "" 1 none 0)
        "x" 2 none 0).accessOrder := by
  refine ⟨?_, by decide, by decide, by decide, by decide⟩
  unfold Cache.Inv
  exact ⟨by simp, by simp, fun k2 => by simp, by simp⟩

/-! ## Cleanup characterization -/

theorem foldl_delete_cache {T : Type} :
    ∀ (ks : List String) (c : Cache.TtlCache T),
      (ks.foldl (fun acc k2 => (Cache.delete acc k2).2) c).cache =
        ks.foldl (fun m k2 => mapDelete m k2) c.cache := by
  intro ks
  induction ks with
  | nil => intro c; rfl
  | cons k2 t ih => intro c; exact ih _

theorem foldl_mapDelete_eq_filter {β : Type} :
    ∀ (ks : List String) (m : List (String × β)),
      ks.foldl (fun m2 k2 => mapDelete m2 k2) m =
        m.filter (fun p => !(ks.contains p.1)) := by
  intro ks
  induction ks with
  | nil => intro m; simp
  | cons k2 t ih =>
    intro m
    show t.foldl _ (mapDelete m k2) = _
    rw [ih (mapDelete m k2)]
    unfold mapDelete
    rw [List.filter_filter]
    apply List.filter_congr
    intro p _
    have hbd : (p.1 == k2) = decide (p.1 = k2) := by
      cases hd : decide (p.1 = k2)
      · have hne : ¬(p.1 = k2) := of_decide_eq_false hd
        simp [hne]
      · have heq : p.1 = k2 := of_decide_eq_true hd
        simp [heq]
    simp [List.contains_cons, Bool.not_or, Bool.and_comm, hbd]

theorem nodup_key_inj {β : Type} :
    ∀ (m : List (String × β)), (m.map Prod.fst).Nodup →
      ∀ p q, p ∈ m → q ∈ m → p.1 = q.1 → p = q := by
  intro m
  induction m with
  | nil => intro _ p q hp _ _; exact absurd hp (List.not_mem_nil _)
  | cons a t ih =>
    intro hn p q hp hq he
    rw [List.map_cons, List.nodup_cons] at hn
    rcases List.mem_cons.mp hp with h1 | h1 <;> rcases List.mem_cons.mp hq with h2 | h2
    · rw [h1, h2]
    · exfalso
      apply hn.1
      rw [← show p.1 = a.1 from by rw [h1], he]
      exact List.mem_map.mpr ⟨q, h2, rfl⟩
    · exfalso
      apply hn.1
      rw [← show q.1 = a.1 from by rw [h2], ← he]
      exact List.mem_map.mpr ⟨p, h1, rfl⟩
    · exact ih hn.2 p q h1 h2 he

theorem contains_expired_keys {T : Type} (c : Cache.TtlCache T) (now : Nat)
    (hn : (c.cache.map Prod.fst).Nodup) :
    ∀ p ∈ c.cache,
      ((c.cache.filter (fun q => q.2.expiresAt ≤ now)).map Prod.fst).contains p.1 =
        decide (p.2.expiresAt ≤ now) := by
  intro p hp
  by_cases hexp : p.2.expiresAt ≤ now
  · rw [decide_eq_true hexp]
    have hmem2 : p.1 ∈ (c.cache.filter (fun q => q.2.expiresAt ≤ now)).map Prod.fst :=
      List.mem_map.mpr ⟨p, List.mem_filter.mpr ⟨hp, by simpa using hexp⟩, rfl⟩
    exact List.elem_iff.mpr hmem2
  · rw [decide_eq_false hexp]
    have hnotmem : p.1 ∉ (c.cache.filter (fun q => q.2.expiresAt ≤ now)).map Prod.fst := by
      intro hmem2
      obtain ⟨q, hq, he⟩ := List.mem_map.mp hmem2
      obtain ⟨hqc, hqe⟩ := List.mem_filter.mp hq
      have hpq := nodup_key_inj _ hn q p hqc hp he
      rw [hpq] at hqe
      exact hexp (by simpa using hqe)
    cases hc : ((c.cache.filter (fun q => q.2.expiresAt ≤ now)).map Prod.fst).contains p.1
    · rfl
    · exact absurd (List.elem_iff.mp hc) hnotmem

theorem cleanup_spec {T : Type} (c : Cache.TtlCache T) (now : Nat)
    (hn : (c.cache.map Prod.fst).Nodup) :
    (Cache.cleanup c now).1 = (c.cache.filter (fun p => p.2.expiresAt ≤ now)).length ∧
    ((Cache.cleanup c now).2).cache =
      c.cache.filter (fun p => !(decide (p.2.expiresAt ≤ now))) := by
  constructor
  · simp only [Cache.cleanup]
    exact List.length_map _ _
  · show ((((c.cache.filter (fun p => p.2.expiresAt ≤ now)).map Prod.fst).foldl
      (fun acc k2 => (Cache.delete acc k2).2) c)).cache = _
    rw [foldl_delete_cache, foldl_mapDelete_eq_filter]
    apply List.filter_congr
    intro p hp
    rw [contains_expired_keys c now hn p hp]

/-- Claim C6: a cache entry is readable exactly when the current time is
strictly before its expiresAt; get on a present but expired key removes
the entry and returns absent; has on such a key removes it, returns
false, and only erases that key from the recency order; has on a live
key does not change the cache at all; cleanup removes exactly the
currently expired entries and returns their count, leaving every
unexpired entry in place. -/
theorem cache_expiry_semantics {T : Type} (c : Cache.TtlCache T) (h : Cache.Inv c) :
    (∀ k now (v : T), (Cache.get c k now).1 = some v ↔
      ∃ e, mapGet c.cache k = some e ∧ now < e.expiresAt ∧ e.value = v) ∧
    (∀ k now e, mapGet c.cache k = some e → e.expiresAt ≤ now →
      (Cache.get c k now).1 = none ∧ mapGet ((Cache.get c k now).2).cache k = none) ∧
    (∀ k now, (Cache.has c k now).1 = true ↔
      ∃ e, mapGet c.cache k = some e ∧ now < e.expiresAt) ∧
    (∀ k now e, mapGet c.cache k = some e → e.expiresAt ≤ now →
      (Cache.has c k now).1 = false ∧ mapGet ((Cache.has c k now).2).cache k = none ∧
      ((Cache.has c k now).2).accessOrder = c.accessOrder.erase k) ∧
    (∀ k now e, mapGet c.cache k = some e → now < e.expiresAt →
      (Cache.has c k now).2 = c) ∧
    (∀ now, (Cache.cleanup c now).1 =
        (c.cache.filter (fun p => p.2.expiresAt ≤ now)).length ∧
      ((Cache.cleanup c now).2).cache =
        c.cache.filter (fun p => !(decide (p.2.expiresAt ≤ now)))) := by
  refine ⟨?_, ?_, ?_, ?_, ?_, fun now => cleanup_spec c now h.1⟩
  · intro k now v
    constructor
    · intro hv
      cases hm : mapGet c.cache k with
      | none =>
        rw [show (Cache.get c k now).1 = none from by simp [Cache.get, hm]] at hv
        exact absurd hv (by simp)
      | some e =>
        by_cases hexp : e.expiresAt ≤ now
        · rw [show (Cache.get c k now).1 = none from
            by simp [Cache.get, hm, if_pos hexp]] at hv
          exact absurd hv (by simp)
        · refine ⟨e, rfl, Nat.lt_of_not_le hexp, ?_⟩
          have : (Cache.get c k now).1 = some e.value := by
            simp [Cache.get, hm, if_neg hexp]
          rw [this] at hv
          exact Option.some.inj hv
    · rintro ⟨e, hm, hlt, he⟩
      have hexp : ¬(e.expiresAt ≤ now) := Nat.not_le.mpr hlt
      rw [show (Cache.get c k now).1 = some e.value from by simp [Cache.get, hm, if_neg hexp]]
      rw [he]
  · intro k now e hm hexp
    constructor
    · simp [Cache.get, hm, if_pos hexp]
    · rw [show ((Cache.get c k now).2).cache = mapDelete c.cache k from
        by simp [Cache.get, hm, if_pos hexp]]
      exact mapGet_mapDelete_self c.cache k
  · intro k now
    constructor
    · intro hv
      cases hm : mapGet c.cache k with
      | none =>
        rw [show (Cache.has c k now).1 = false from by simp [Cache.has, hm]] at hv
        exact absurd hv (by simp)
      | some e =>
        by_cases hexp : e.expiresAt ≤ now
        · rw [show (Cache.has c k now).1 = false from
            by simp [Cache.has, hm, if_pos hexp]] at hv
          exact absurd hv (by simp)
        · exact ⟨e, rfl, Nat.lt_of_not_le hexp⟩
    · rintro ⟨e, hm, hlt⟩
      have hexp : ¬(e.expiresAt ≤ now) := Nat.not_le.mpr hlt
      simp [Cache.has, hm, if_neg hexp]
  · intro k now e hm hexp
    refine ⟨by simp [Cache.has, hm, if_pos hexp], ?_, ?_⟩
    · rw [show ((Cache.has c k now).2).cache = mapDelete c.cache k from
        by simp [Cache.has, hm, if_pos hexp]]
      exact mapGet_mapDelete_self c.cache k
    · simp [Cache.has, hm, if_pos hexp]
  · intro k now e hm hlt
    have hexp : ¬(e.expiresAt ≤ now) := Nat.not_le.mpr hlt
    simp [Cache.has, hm, if_neg hexp]

theorem cache_expiry_semantics_witness :
    (Cache.cleanup (⟨[("a", ⟨1, 10⟩), ("b", ⟨2, 100⟩)], ["a", "b"], 1000, 5⟩ :
        Cache.TtlCache Nat) 50).1 =
      ((⟨[("a", ⟨1, 10⟩), ("b", ⟨2, 100⟩)], ["a", "b"], 1000, 5⟩ :
        Cache.TtlCache Nat).cache.filter (fun p => p.2.expiresAt ≤ 50)).length := by
  have hinv : Cache.Inv (⟨[("a", ⟨1, 10⟩), ("b", ⟨2, 100⟩)], ["a", "b"], 1000, 5⟩ :
      Cache.TtlCache Nat) := by
    unfold Cache.Inv
    exact ⟨by simp, by simp, fun k2 => by simp, by simp⟩
  exact ((cache_expiry_semantics _ hinv).2.2.2.2.2 50).1

/-- Claim C7 (amended): on the local backend, a missing key and the empty
string key (both falsy in JavaScript) always read as absent without
raising; for every nonempty key an entry with creation time createdAt and
lifetime ttlMs is returnable iff now - createdAt is at most ttlMs, and a
read past that bound deletes the entry and returns absent; the default
ttlMs is 10 minutes; a second set on the same key overwrites the prior
entry without growing the store. -/
theorem idempotency_local_semantics {B : Type} (store : List (String × Idem.Entry B)) :
    (∀ now, Idem.getIdempotent store none now = (none, store) ∧
      Idem.getIdempotent store (some "") now = (none, store)) ∧
    (∀ k now e, k ≠ "" → mapGet store k = some e →
      ((Idem.getIdempotent store (some k) now).1 = some e ↔
        now - e.createdAt ≤ e.ttlMs) ∧
      (e.ttlMs < now - e.createdAt →
        Idem.getIdempotent store (some k) now = (none, mapDelete store k))) ∧
    (∀ k s (b : B) ttl now later, k ≠ "" →
      ((Idem.getIdempotent (Idem.setIdempotent store k s b ttl now) (some k) later).1 =
          some ⟨s, b, now, ttl.getD Idem.defaultTtlMs⟩ ↔
        later - now ≤ ttl.getD Idem.defaultTtlMs)) ∧
    (Idem.defaultTtlMs = 600000 ∧
      ∀ k s (b : B) now, mapGet (Idem.setIdempotent store k s b none now) k =
        some ⟨s, b, now, 600000⟩) ∧
    (∀ k s1 (b1 : B) t1 n1 s2 (b2 : B) t2 n2,
      mapGet (Idem.setIdempotent (Idem.setIdempotent store k s1 b1 t1 n1) k s2 b2 t2 n2) k =
        some ⟨s2, b2, n2, t2.getD Idem.defaultTtlMs⟩ ∧
      (Idem.setIdempotent (Idem.setIdempotent store k s1 b1 t1 n1) k s2 b2 t2 n2).length =
        (Idem.setIdempotent store k s1 b1 t1 n1).length) := by
  refine ⟨?_, ?_, ?_, ?_, ?_⟩
  · intro now
    exact ⟨rfl, by simp [Idem.getIdempotent]⟩
  · intro k now e hk hm
    constructor
    · by_cases hexp : e.ttlMs < now - e.createdAt
      · rw [show (Idem.getIdempotent store (some k) now).1 = none from
          by simp [Idem.getIdempotent, hk, hm, if_pos hexp]]
        constructor
        · intro hcon; exact absurd hcon (by simp)
        · intro hle; omega
      · rw [show (Idem.getIdempotent store (some k) now).1 = some e from
          by simp [Idem.getIdempotent, hk, hm, if_neg hexp]]
        constructor
        · intro _; omega
        · intro _; rfl
    · intro hexp
      simp [Idem.getIdempotent, hk, hm, if_pos hexp]
  · intro k s b ttl now later hk
    have hm : mapGet (Idem.setIdempotent store k s b ttl now) k =
        some ⟨s, b, now, ttl.getD Idem.defaultTtlMs⟩ := mapGet_mapSet_self store k _
    by_cases hexp : (⟨s, b, now, ttl.getD Idem.defaultTtlMs⟩ : Idem.Entry B).ttlMs <
        later - (⟨s, b, now, ttl.getD Idem.defaultTtlMs⟩ : Idem.Entry B).createdAt
    · rw [show (Idem.getIdempotent (Idem.setIdempotent store k s b ttl now) (some k)
          later).1 = none from by simp [Idem.getIdempotent, hk, hm, if_pos hexp]]
      constructor
      · intro hcon; exact absurd hcon (by simp)
      · intro hle
        exact absurd hexp (by simp only [not_lt]; exact hle)
    · rw [show (Idem.getIdempotent (Idem.setIdempotent store k s b ttl now) (some k)
          later).1 = some ⟨s, b, now, ttl.getD Idem.defaultTtlMs⟩ from
          by simp [Idem.getIdempotent, hk, hm, if_neg hexp]]
      constructor
      · intro _
        simpa using Nat.le_of_not_lt hexp
      · intro _; rfl
  · exact ⟨rfl, fun k s b now => mapGet_mapSet_self store k _⟩
  · intro k s1 b1 t1 n1 s2 b2 t2 n2
    refine ⟨mapGet_mapSet_self _ k _, ?_⟩
    exact length_mapSet_of_has _ _ _ (hasKey_mapSet_self store k _)

theorem idempotency_local_semantics_witness :
    (Idem.getIdempotent
        (Idem.setIdempotent ([] : List (String × Idem.Entry Nat)) "abc-123" 200 42 none 0)
        (some "abc-123") 1000).1 = some ⟨200, 42, 0, 600000⟩ :=
  ((idempotency_local_semantics ([] : List (String × Idem.Entry Nat))).2.2.1
    "abc-123" 200 42 none 0 1000 (by decide)).mpr (by decide)

/-- Claim C7 counterexample: the empty string key is falsy in JavaScript,
so an entry stored by set under the empty key is present in the store and
unexpired, yet get on that key returns absent. -/
theorem idem_empty_key_counterexample :
    (Idem.getIdempotent
        (Idem.setIdempotent ([] : List (String × Idem.Entry Nat)) "" 200 7 none 0)
        (some "") 0).1 = none ∧
    mapGet (Idem.setIdempotent ([] : List (String × Idem.Entry Nat)) "" 200 7 none 0) "" =
      some ⟨200, 7, 0, Idem.defaultTtlMs⟩ ∧
    (0 : Nat) - 0 ≤ Idem.defaultTtlMs := by
  refine ⟨by decide, by decide, by decide⟩

end SDK
